import Mathlib

/-!
# csves: CSV field mapping and document assembly

A shallow embedding of the field-mapping pipeline of `csves`
(`pkg/csv/service.go`, `pkg/config/config.go`, `pkg/models/document.go`).

Modelling conventions.

* A Go `string` is a Lean `String`, read as its sequence of runes. The source
  only inspects strings rune by rune (`unicode.IsSpace`, `unicode.IsControl`,
  the path separator), so the model covers every valid UTF-8 string.
* A Go `map[string]V` is its lookup function `String → Option V`; `none` is
  "key absent". Two maps are the same map exactly when the functions agree.
* `strings.ToLower` and `strings.EqualFold` depend on the Unicode case tables
  of the Go library. They are taken as parameters (`GoStrings`), so every
  general theorem holds for whatever these functions are; `GoStrings.ascii`
  is the instance used on concrete ASCII inputs, where it agrees with Go.
* `csv.Reader` is the sequence of results its successive `Read` calls give.
* `bufio.Scanner` is its first `Scan` on the content of the file, with the
  default split function and the default token size limit.
* A run-time panic (index out of range) is the `none` of an `Option`.
-/

namespace Csves

/-! ## Go library functions used by the source -/

/-- Go `unicode.IsSpace`: the Latin-1 cases and the `White_Space` table. -/
def IsSpace (r : Char) : Bool :=
  let n := r.toNat
  n == 0x09 || n == 0x0A || n == 0x0B || n == 0x0C || n == 0x0D || n == 0x20 ||
  n == 0x85 || n == 0xA0 || n == 0x1680 || (0x2000 ≤ n && n ≤ 0x200A) ||
  n == 0x2028 || n == 0x2029 || n == 0x202F || n == 0x205F || n == 0x3000

/-- Go `unicode.IsControl`: category Cc, that is U+0000..U+001F and U+007F..U+009F. -/
def IsControl (r : Char) : Bool :=
  let n := r.toNat
  n ≤ 0x1F || (0x7F ≤ n && n ≤ 0x9F)

/-- Go `strings.TrimLeftFunc` on the rune sequence. -/
def TrimLeftFunc (s : List Char) (f : Char → Bool) : List Char :=
  s.dropWhile f

/-- Go `strings.TrimRightFunc` on the rune sequence. -/
def TrimRightFunc (s : List Char) (f : Char → Bool) : List Char :=
  (s.reverse.dropWhile f).reverse

/-- Go `strings.TrimFunc`: `TrimRightFunc(TrimLeftFunc(s, f), f)`. -/
def TrimFunc (s : List Char) (f : Char → Bool) : List Char :=
  TrimRightFunc (TrimLeftFunc s f) f

/-- The scanning loop of Go `strings.Fields`: `cur` holds the runes of the field
being read, latest first; a white space rune closes a non-empty field. -/
def FieldsLoop : List Char → List Char → List (List Char)
  | [], cur => if cur.isEmpty then [] else [cur.reverse]
  | r :: rest, cur =>
    if IsSpace r then
      if cur.isEmpty then FieldsLoop rest [] else cur.reverse :: FieldsLoop rest []
    else FieldsLoop rest (r :: cur)

/-- Go `strings.Fields`: the maximal runs of non white space runes, in order. -/
def Fields (s : List Char) : List (List Char) :=
  FieldsLoop s []

/-- Go `strings.Join` on rune sequences. -/
def Join : List (List Char) → List Char → List Char
  | [], _ => []
  | [a], _ => a
  | a :: b :: rest, sep => a ++ sep ++ Join (b :: rest) sep

/-- The case functions of the Go `strings` package, whose Unicode tables are
not part of the repository. -/
structure GoStrings where
  /-- Go `strings.ToLower`. -/
  ToLower : String → String
  /-- Go `strings.EqualFold`. -/
  EqualFold : String → String → Bool

/-- The case functions on ASCII text: `A`..`Z` map to `a`..`z`, every other
rune is kept. Go agrees with it on every ASCII string. -/
def GoStrings.ascii : GoStrings where
  ToLower := fun s => String.mk (s.data.map Char.toLower)
  EqualFold := fun a b => a.data.map Char.toLower == b.data.map Char.toLower

/-- Go `filepath.Base` with separator `/`: the last element of the path, after
trailing separators are removed; `.` for the empty path and `/` for a path
of separators only. -/
def Base (path : String) : String :=
  if path.data.isEmpty then "."
  else
    let stripped := (path.data.reverse.dropWhile (fun c => c == '/')).reverse
    let last := (stripped.reverse.takeWhile (fun c => c != '/')).reverse
    if last.isEmpty then "/" else String.mk last

/-! ## pkg/csv: the text normalizer -/

/-- Source `cleanString`: trim white space and control runes at both ends, then
join the white space separated fields with one space. -/
def cleanString (s : String) : String :=
  let t := TrimFunc s.data (fun r => IsSpace r || IsControl r)
  String.mk (Join (Fields t) [' '])

/-- The text with every run of white space runes replaced by one space, as the
specification words the normalizer; `inRun` says that the rune before was
white space. It is compared with `cleanString`, which the source defines by
`strings.Fields` and `strings.Join`. -/
def collapseRuns : Bool → List Char → List Char
  | _, [] => []
  | inRun, c :: rest =>
    if IsSpace c then
      if inRun then collapseRuns true rest else ' ' :: collapseRuns true rest
    else c :: collapseRuns false rest

/-! ## pkg/models -/

/-- Source `models.FieldConfig`. -/
structure FieldConfig where
  Name : String
  Required : Bool
  CSVName : String
  deriving DecidableEq, Repr

/-- A Go `map[string]V`, as its lookup function. -/
abbrev GoMap (V : Type) := String → Option V

/-- Go `make(map[string]V)`: the map without keys. -/
def GoMap.empty {V : Type} : GoMap V := fun _ => none

/-- Go `m[k] = v`. -/
def GoMap.set {V : Type} (m : GoMap V) (k : String) (v : V) : GoMap V :=
  fun q => if q = k then some v else m q

/-- Source `models.Document`. -/
structure Document where
  Fields : GoMap String

/-- Source `models.NewDocument`. -/
def NewDocument : Document := ⟨GoMap.empty⟩

/-- Source `Document.SetField`. -/
def Document.SetField (d : Document) (name value : String) : Document :=
  ⟨d.Fields.set name value⟩

/-- Source `Document.GetField`: the value, or the zero value `""` of an absent key. -/
def Document.GetField (d : Document) (name : String) : String :=
  (d.Fields name).getD ""

/-! ## pkg/config -/

/-- Source `config.Config`, with the members the CSV pipeline reads. -/
structure Config where
  CSVFilePath : String
  Fields : List FieldConfig
  FieldConfigPath : String
  SelectedFields : List String

/-- Source `filterFields`: with a non-empty selection, keep the fields whose
name folds equal to some selected entry. -/
def filterFields (S : GoStrings) (fields : List FieldConfig)
    (selectedFields : List String) : List FieldConfig :=
  if selectedFields.length = 0 then fields
  else fields.filter (fun field => selectedFields.any (fun selected => S.EqualFold field.Name selected))

/-- Source `LoadConfig`, from the check of the CSV path on. The parsed flags
are arguments: `csv` is `-csv`, `selected` is the `-select` list after splitting
and trimming, `fieldConfigPath` is `-fields`, and `loadFieldConfig` is the result
of reading and decoding the file at that path. -/
def LoadConfig (S : GoStrings) (csv : String) (selected : List String)
    (fieldConfigPath : String) (loadFieldConfig : String → Except String (List FieldConfig)) :
    Except String Config :=
  if csv = "" then .error "CSV file path is required"
  else
    let config : Config :=
      { CSVFilePath := csv, Fields := [], FieldConfigPath := fieldConfigPath,
        SelectedFields := selected }
    if fieldConfigPath ≠ "" then
      match loadFieldConfig fieldConfigPath with
      | .error err => .error ("error loading field configuration: " ++ err)
      | .ok fields =>
        let config := { config with Fields := fields }
        if config.SelectedFields.length > 0 then
          .ok { config with Fields := filterFields S config.Fields config.SelectedFields }
        else .ok config
    else .ok config

/-! ## pkg/csv: the reader -/

/-- One result of `csv.Reader.Read` before the end of the input: a record, or a
malformed row (a `*csv.ParseError`, for example a wrong number of fields). -/
inductive RowResult where
  | row (record : List String)
  | bad (err : String)
  deriving DecidableEq, Repr

/-- The error of a `Read` call. -/
inductive ReadErr where
  | EOF
  | Parse (msg : String)
  deriving DecidableEq, Repr

/-- The text of a read error (`err.Error()`). -/
def ReadErr.Error : ReadErr → String
  | .EOF => "EOF"
  | .Parse msg => msg

/-- The state of a `csv.Reader`: the results its next `Read` calls give, in
order; once they are used up every `Read` gives `io.EOF`. -/
structure Reader where
  pending : List RowResult

/-- Go `csv.Reader.Read`: the record and the error, with the reader advanced. -/
def Reader.Read (r : Reader) : (List String × Option ReadErr) × Reader :=
  match r.pending with
  | [] => (([], some .EOF), r)
  | .row record :: rest => ((record, none), ⟨rest⟩)
  | .bad err :: rest => (([], some (.Parse err)), ⟨rest⟩)

/-- Go `csv.Reader` with `FieldsPerRecord = 0`: the first record read sets the
expected number of fields `n`, and a later line with another number of fields
is reported as `ErrFieldCount`. The lines are the lexed, non-blank lines. -/
def csvResults : Nat → List (List String) → List RowResult
  | _, [] => []
  | n, line :: rest =>
    if n = 0 then .row line :: csvResults line.length rest
    else if line.length ≠ n then .bad "wrong number of fields" :: csvResults n rest
    else .row line :: csvResults n rest

/-- Source `csv.Service`: the configuration and the reader. -/
structure Service where
  config : Config
  reader : Reader

/-! ## pkg/csv: schema inference and header mapping -/

/-- Source `DetectFields`: one optional field per header cell that does not
clean to the empty string. -/
def DetectFields : List String → List FieldConfig
  | [] => []
  | h :: rest =>
    let name := cleanString h
    if name = "" then DetectFields rest
    else { Name := name, Required := false, CSVName := name } :: DetectFields rest

/-- The loop of `ProcessHeader` that fills `headerMap`: `i` is the position of
the first cell of `header`. -/
def fillHeaderMap (S : GoStrings) : List String → Nat → GoMap Nat → GoMap Nat
  | [], _, headerMap => headerMap
  | column :: rest, i, headerMap =>
    if column ≠ "" then fillHeaderMap S rest (i + 1) (headerMap.set (S.ToLower column) i)
    else fillHeaderMap S rest (i + 1) headerMap

/-- The loop of `ProcessHeader` that validates the required fields: the error
of the first required field whose lower-cased `CSVName` is not a key. -/
def validateRequired (S : GoStrings) (headerMap : GoMap Nat) : List FieldConfig → Option String
  | [] => none
  | field :: rest =>
    if field.Required then
      match headerMap (S.ToLower field.CSVName) with
      | none => some ("required field '" ++ field.CSVName ++ "' not found in CSV header")
      | some _ => validateRequired S headerMap rest
    else validateRequired S headerMap rest

/-- Source `Service.ProcessHeader`: the header map or the error, and the
service after the call (reader advanced, `config.Fields` possibly detected). -/
def ProcessHeader (S : GoStrings) (s : Service) : Except String (GoMap Nat) × Service :=
  match s.reader.Read with
  | ((_, some err), reader) =>
    (.error ("error reading CSV header: " ++ err.Error), { s with reader := reader })
  | ((header, none), reader) =>
    let header := header.map cleanString
    let config :=
      if s.config.Fields.length = 0 then { s.config with Fields := DetectFields header }
      else s.config
    let headerMap := fillHeaderMap S header 0 GoMap.empty
    match validateRequired S headerMap config.Fields with
    | some err => (.error err, { config := config, reader := reader })
    | none => (.ok headerMap, { config := config, reader := reader })

/-! ## pkg/csv: record assembly -/

/-- The loop of `ProcessRecords` over `config.Fields` for one cleaned record;
`none` is the panic of `record[idx]` when `idx` is out of range. -/
def setFields (S : GoStrings) (headerMap : GoMap Nat) (record : List String) :
    List FieldConfig → Document → Option Document
  | [], doc => some doc
  | field :: rest, doc =>
    match headerMap (S.ToLower field.CSVName) with
    | some idx =>
      match record[idx]? with
      | none => none
      | some value =>
        if value ≠ "" then setFields S headerMap record rest (doc.SetField field.Name value)
        else setFields S headerMap record rest doc
    | none => setFields S headerMap record rest doc

/-- The body of the loop of `ProcessRecords` for a record read without error:
clean the cells, set the schema fields, then set `source_csv`. -/
def buildDocument (S : GoStrings) (fields : List FieldConfig) (sourceFile : String)
    (headerMap : GoMap Nat) (record : List String) : Option Document :=
  match setFields S headerMap (record.map cleanString) fields NewDocument with
  | none => none
  | some doc => some (doc.SetField "source_csv" sourceFile)

/-- The read loop of `ProcessRecords`: stop at the end of the input, skip a
malformed row, append the document of any other row. -/
def readLoop (S : GoStrings) (fields : List FieldConfig) (sourceFile : String)
    (headerMap : GoMap Nat) : List RowResult → List Document → Option (List Document)
  | [], documents => some documents
  | .bad _ :: rest, documents => readLoop S fields sourceFile headerMap rest documents
  | .row record :: rest, documents =>
    match buildDocument S fields sourceFile headerMap record with
    | none => none
    | some doc => readLoop S fields sourceFile headerMap rest (documents ++ [doc])

/-- Source `Service.ProcessRecords`: the documents and the Go error (always
nil), with the service after the call; `none` is a panic. -/
def ProcessRecords (S : GoStrings) (s : Service) (headerMap : GoMap Nat) :
    Option ((List Document × Option String) × Service) :=
  match readLoop S s.config.Fields (Base s.config.CSVFilePath) headerMap s.reader.pending [] with
  | none => none
  | some documents => some ((documents, none), { s with reader := ⟨[]⟩ })

/-- The records of a reader state that are read without error, in order. -/
def goodRows : List RowResult → List (List String)
  | [] => []
  | .row record :: rest => record :: goodRows rest
  | .bad _ :: rest => goodRows rest

/-- The `main` pipeline on an opened file: `ProcessHeader`, then, when it
succeeds, `ProcessRecords` with the header map it returned. -/
def runPipeline (S : GoStrings) (s : Service) :
    Except String (Option (List Document × Option String)) :=
  match ProcessHeader S s with
  | (.error err, _) => .error ("Error processing CSV header: " ++ err)
  | (.ok headerMap, s1) => .ok ((ProcessRecords S s1 headerMap).map Prod.fst)

/-! ## pkg/csv: delimiter detection -/

/-- Go `strings.Count(s, string(d))` for a delimiter `d` of one rune: the number
of occurrences of `d` in `s`. -/
def Count (s : String) (d : Char) : Nat :=
  s.data.count d

/-- Go `bufio.MaxScanTokenSize`, the size limit of a `bufio.Scanner` token. -/
def MaxScanTokenSize : Nat := 64 * 1024

/-- The number of bytes of the UTF-8 encoding of a rune sequence. -/
def byteLen (s : List Char) : Nat :=
  (s.map Char.utf8Size).sum

/-- Go `dropCR` of `bufio.ScanLines`: drop one final carriage return. -/
def dropCR (data : List Char) : List Char :=
  if data.getLast? = some '\r' then data.dropLast else data

/-- The first `scanner.Scan()` and `scanner.Text()` of a `bufio.Scanner` with its
default split function `ScanLines` and default buffer, on the content of a
file: `none` when `Scan` returns false, which it does at the end of an empty
file and also when no line end is found within `MaxScanTokenSize` bytes
(`bufio.ErrTooLong`); otherwise the text before the first line feed. -/
def scanFirstLine (content : String) : Option String :=
  let line := content.data.takeWhile (fun c => c != '\n')
  if content.data.isEmpty then none
  else if MaxScanTokenSize ≤ byteLen line then none
  else some (String.mk (dropCR line))

/-- The loop of `DetectDelimiter` over the candidate delimiters, with the
variables `maxCount` and `bestDelimiter`. -/
def delimiterLoop (firstLine : String) : List Char → Nat → Char → Char
  | [], _, bestDelimiter => bestDelimiter
  | d :: rest, maxCount, bestDelimiter =>
    let count := Count firstLine d
    if count > maxCount then delimiterLoop firstLine rest count d
    else delimiterLoop firstLine rest maxCount bestDelimiter

/-- Source `DetectDelimiter`: `file` is the result of `os.Open`, the content of
the file or the error; the result is the delimiter and the Go error. -/
def DetectDelimiter (file : Except String String) : Char × Option String :=
  match file with
  | .error err => (',', some ("error opening file: " ++ err))
  | .ok content =>
    match scanFirstLine content with
    | none => (',', some "empty file")
    | some firstLine => (delimiterLoop firstLine [',', ';', '\t', '|'] 0 ',', none)

/-! ## Concrete inputs -/

/-- A header map for the columns `id` and `name`, used on concrete inputs. -/
def demoHeaderMap : GoMap Nat :=
  fun k => if k = "id" then some 0 else if k = "name" then some 1 else none

/-- A configuration with a two-field schema, used on concrete inputs. -/
def demoConfig : Config :=
  { CSVFilePath := "data/file.csv",
    Fields := [{ Name := "id", Required := true, CSVName := "ID" },
               { Name := "source_csv", Required := false, CSVName := "Name" }],
    FieldConfigPath := "fields.json", SelectedFields := [] }

/-- A reader state with two records and a malformed row between them. -/
def demoService : Service :=
  ⟨demoConfig, ⟨[.row ["1", " Alice "], .bad "wrong number of fields", .row ["2", ""]]⟩⟩

/-- The documents of the concrete reader state, as the field assignments made. -/
def demoDocuments : List Document :=
  [((NewDocument.SetField "id" "1").SetField "source_csv" "Alice").SetField "source_csv" "file.csv",
   (NewDocument.SetField "id" "2").SetField "source_csv" "file.csv"]

/-- A reader state whose records have cells that clean to the empty string:
the `name` cell of the first record and the `id` cell of the second. -/
def blankService : Service :=
  ⟨{ CSVFilePath := "data/file.csv",
     Fields := [{ Name := "id", Required := false, CSVName := "ID" },
                { Name := "name", Required := false, CSVName := "Name" }],
     FieldConfigPath := "fields.json", SelectedFields := [] },
   ⟨[.row ["1", " \t "], .row [" ", "Bob"]]⟩⟩

/-- The documents of the reader state with blank cells, as the field
assignments made. -/
def blankDocuments : List Document :=
  [(NewDocument.SetField "id" "1").SetField "source_csv" "file.csv",
   (NewDocument.SetField "name" "Bob").SetField "source_csv" "file.csv"]

/-! ## Lemmas on the header map -/

/-- Filling from a concatenation fills from the first part, then from the second. -/
theorem fill_append (S : GoStrings) (a b : List String) (i : Nat) (m : GoMap Nat) :
    fillHeaderMap S (a ++ b) i m = fillHeaderMap S b (i + a.length) (fillHeaderMap S a i m) := by
  induction a generalizing i m with
  | nil => simp [fillHeaderMap]
  | cons c a ih =>
    have e : i + 1 + a.length = i + (a.length + 1) := by omega
    by_cases h : c = "" <;> simp [fillHeaderMap, h, ih, e]

/-- The value of the filled map at a key, by the split of the header at the
last cell that gives this key. -/
theorem fill_eq_some (S : GoStrings) (header : List String) (i : Nat) (m : GoMap Nat)
    (k : String) (v : Nat) :
    fillHeaderMap S header i m k = some v ↔
      (∃ pre c post, header = pre ++ c :: post ∧ c ≠ "" ∧ S.ToLower c = k ∧ v = i + pre.length ∧
        ∀ d ∈ post, d ≠ "" → S.ToLower d ≠ k) ∨
      ((∀ d ∈ header, d ≠ "" → S.ToLower d ≠ k) ∧ m k = some v) := by
  induction header using List.reverseRecOn generalizing v with
  | nil => simp [fillHeaderMap]
  | append_singleton init c ih =>
    rw [fill_append]
    by_cases hc : c ≠ "" ∧ S.ToLower c = k
    · obtain ⟨hc1, hc2⟩ := hc
      have : fillHeaderMap S [c] (i + init.length) (fillHeaderMap S init i m) k
          = some (i + init.length) := by
        simp [fillHeaderMap, hc1, GoMap.set, hc2]
      rw [this]
      constructor
      · intro h
        left
        refine ⟨init, c, [], rfl, hc1, hc2, ?_, by simp⟩
        simpa using h.symm
      · rintro (⟨pre, c', post, hsplit, hc1', hc2', hv, hpost⟩ | ⟨hno, _⟩)
        · rcases List.eq_nil_or_concat post with hp | ⟨post', d, hp⟩
          · subst hp
            have := List.append_inj_left' hsplit (by simp)
            subst this
            simp [hv]
          · subst hp
            have h2 : init ++ [c] = (pre ++ c' :: post') ++ [d] := by simpa using hsplit
            have h3 := List.append_inj_right' h2 (by simp)
            simp at h3
            subst h3
            exact absurd hc2 (hpost c (by simp) hc1)
        · exact absurd hc2 (hno c (by simp) hc1)
    · have : fillHeaderMap S [c] (i + init.length) (fillHeaderMap S init i m) k
          = fillHeaderMap S init i m k := by
        simp only [fillHeaderMap]
        split
        · rename_i h1
          have : k ≠ S.ToLower c := fun h => hc ⟨h1, h.symm⟩
          simp [GoMap.set, this]
        · rfl
      rw [this, ih]
      have hc' : c ≠ "" → S.ToLower c ≠ k := fun a b => hc ⟨a, b⟩
      constructor
      · rintro (⟨pre, c', post, hsplit, hc1', hc2', hv, hpost⟩ | ⟨hno, hm⟩)
        · left
          refine ⟨pre, c', post ++ [c], by simp [hsplit], hc1', hc2', hv, ?_⟩
          intro d hd
          rcases List.mem_append.1 hd with h | h
          · exact hpost d h
          · simp at h; subst h; exact hc'
        · right
          refine ⟨?_, hm⟩
          intro d hd
          rcases List.mem_append.1 hd with h | h
          · exact hno d h
          · simp at h; subst h; exact hc'
      · rintro (⟨pre, c', post, hsplit, hc1', hc2', hv, hpost⟩ | ⟨hno, hm⟩)
        · rcases List.eq_nil_or_concat post with hp | ⟨post', d, hp⟩
          · subst hp
            have h3 := List.append_inj_right' hsplit (by simp)
            simp at h3
            subst h3
            exact absurd hc2' (hc' hc1')
          · subst hp
            have h2 : init ++ [c] = (pre ++ c' :: post') ++ [d] := by simpa using hsplit
            have h3 := List.append_inj_left' h2 (by simp)
            left
            exact ⟨pre, c', post', h3, hc1', hc2', hv, fun e he => hpost e (by simp [he])⟩
        · right
          exact ⟨fun d hd => hno d (by simp [hd]), hm⟩

/-- The value of the header map at a key, by positions: the largest position
of a non-empty cell whose lower-cased text is the key. -/
theorem fill_index (S : GoStrings) (header : List String) (k : String) (i : Nat) :
    fillHeaderMap S header 0 GoMap.empty k = some i ↔
      (∃ c, header[i]? = some c ∧ c ≠ "" ∧ S.ToLower c = k) ∧
        ∀ j d, i < j → header[j]? = some d → d ≠ "" → S.ToLower d ≠ k := by
  rw [fill_eq_some]
  simp only [GoMap.empty, and_false, or_false, Nat.zero_add, reduceCtorEq]
  constructor
  · rintro ⟨pre, c, post, hsplit, hc1, hc2, hv, hpost⟩
    subst hsplit hv
    refine ⟨⟨c, by rw [List.getElem?_append_right (Nat.le_refl _)]; simp, hc1, hc2⟩, ?_⟩
    intro j d hj hd
    rw [List.getElem?_append_right (by omega)] at hd
    obtain ⟨n, hn⟩ : ∃ n, j - pre.length = n + 1 := ⟨j - pre.length - 1, by omega⟩
    rw [hn, List.getElem?_cons_succ] at hd
    exact hpost d (List.getElem?_mem hd)
  · rintro ⟨⟨c, hc, hc1, hc2⟩, hlast⟩
    have hi : i < header.length := by
      by_contra h
      rw [List.getElem?_eq_none (by omega)] at hc
      exact absurd hc (by simp)
    have hci : header[i] = c := by
      rw [List.getElem?_eq_getElem hi] at hc
      exact Option.some.inj hc
    refine ⟨header.take i, c, header.drop (i + 1), ?_, hc1, hc2, ?_, ?_⟩
    · rw [← hci, ← List.drop_eq_getElem_cons hi, List.take_append_drop]
    · simp [Nat.min_eq_left (Nat.le_of_lt hi)]
    · intro d hd
      obtain ⟨n, hn, hdn⟩ := List.getElem_of_mem hd
      rw [List.getElem_drop] at hdn
      refine hlast (i + 1 + n) d (by omega) ?_
      rw [List.length_drop] at hn
      rw [List.getElem?_eq_getElem (by omega), hdn]

/-- The keys of the filled map: the keys it had, and the lower-cased text of
every non-empty cell. -/
theorem fill_isSome (S : GoStrings) (header : List String) (i : Nat) (m : GoMap Nat)
    (k : String) :
    (fillHeaderMap S header i m k).isSome ↔
      (∃ c ∈ header, c ≠ "" ∧ S.ToLower c = k) ∨ (m k).isSome := by
  induction header generalizing i m with
  | nil => simp [fillHeaderMap]
  | cons c rest ih =>
    by_cases hc : c = ""
    · simp [fillHeaderMap, hc, ih]
    · by_cases hk : k = S.ToLower c
      · subst hk
        have e : fillHeaderMap S (c :: rest) i m
            = fillHeaderMap S rest (i + 1) (m.set (S.ToLower c) i) := by
          simp [fillHeaderMap, hc]
        rw [e, ih]
        simp [GoMap.set, hc]
      · have hk2 : ¬ S.ToLower c = k := fun h => hk h.symm
        simp [fillHeaderMap, hc, ih, GoMap.set, hk, hk2]

/-- Every position stored in the header map is a position of the header. -/
theorem fill_lt_length (S : GoStrings) (header : List String) (k : String) (i : Nat)
    (h : fillHeaderMap S header 0 GoMap.empty k = some i) : i < header.length := by
  obtain ⟨⟨c, hc, _, _⟩, _⟩ := (fill_index S header k i).1 h
  by_contra hlt
  rw [List.getElem?_eq_none (by omega)] at hc
  exact absurd hc (by simp)

/-- Validation passes exactly when every required field has its key. -/
theorem validateRequired_eq_none (S : GoStrings) (headerMap : GoMap Nat)
    (fields : List FieldConfig) :
    validateRequired S headerMap fields = none ↔
      ∀ f ∈ fields, f.Required = true → headerMap (S.ToLower f.CSVName) ≠ none := by
  induction fields with
  | nil => simp [validateRequired]
  | cons f rest ih =>
    by_cases hr : f.Required = true
    · cases hk : headerMap (S.ToLower f.CSVName) with
      | none => simp [validateRequired, hr, hk]
      | some v => simp [validateRequired, hr, hk, ih]
    · simp [validateRequired, hr, ih]

/-- The fields of `DetectFields` are never required. -/
theorem detectFields_not_required (header : List String) :
    ∀ f ∈ DetectFields header, f.Required = false := by
  induction header with
  | nil => simp [DetectFields]
  | cons h rest ih =>
    by_cases hn : cleanString h = "" <;> simp [DetectFields, hn] <;> exact ih

/-- The result of `ProcessHeader` when the header row is read without error. -/
theorem processHeader_row_fst (S : GoStrings) (cfg : Config) (header : List String)
    (rest : List RowResult) :
    (ProcessHeader S ⟨cfg, ⟨.row header :: rest⟩⟩).1 =
      match validateRequired S (fillHeaderMap S (header.map cleanString) 0 GoMap.empty)
          (if cfg.Fields.length = 0 then DetectFields (header.map cleanString)
            else cfg.Fields) with
      | some err => .error err
      | none => .ok (fillHeaderMap S (header.map cleanString) 0 GoMap.empty) := by
  simp only [ProcessHeader, Reader.Read]
  by_cases h0 : cfg.Fields.length = 0 <;> simp only [h0, if_true, if_false] <;> split <;> simp_all

/-- The service after `ProcessHeader` when the header row is read without error. -/
theorem processHeader_row_snd (S : GoStrings) (cfg : Config) (header : List String)
    (rest : List RowResult) :
    (ProcessHeader S ⟨cfg, ⟨.row header :: rest⟩⟩).2 =
      ⟨{ cfg with Fields := if cfg.Fields.length = 0 then DetectFields (header.map cleanString)
            else cfg.Fields }, ⟨rest⟩⟩ := by
  simp only [ProcessHeader, Reader.Read]
  by_cases h0 : cfg.Fields.length = 0 <;> simp only [h0, if_true, if_false] <;> split <;> simp_all

/-! ## Lemmas on record assembly -/

/-- A list with an element satisfying `P` splits at its last such element. -/
theorem exists_last_split {α : Type} (P : α → Prop) (l : List α) (h : ∃ a ∈ l, P a) :
    ∃ pre a post, l = pre ++ a :: post ∧ P a ∧ ∀ b ∈ post, ¬ P b := by
  induction l with
  | nil => simp at h
  | cons x t ih =>
    by_cases ht : ∃ a ∈ t, P a
    · obtain ⟨pre, a, post, hsplit, ha, hpost⟩ := ih ht
      exact ⟨x :: pre, a, post, by simp [hsplit], ha, hpost⟩
    · obtain ⟨a, ha, hPa⟩ := h
      rcases List.mem_cons.1 ha with rfl | hin
      · exact ⟨[], a, t, rfl, hPa, fun b hb hPb => ht ⟨b, hb, hPb⟩⟩
      · exact absurd ⟨a, hin, hPa⟩ ht

/-- Setting the fields of a concatenated schema sets those of the first part,
then those of the second. -/
theorem setFields_append (S : GoStrings) (headerMap : GoMap Nat) (record : List String)
    (a b : List FieldConfig) (doc : Document) :
    setFields S headerMap record (a ++ b) doc =
      (setFields S headerMap record a doc).bind (fun d => setFields S headerMap record b d) := by
  induction a generalizing doc with
  | nil => simp [setFields]
  | cons f a ih =>
    simp only [List.cons_append, setFields]
    cases headerMap (S.ToLower f.CSVName) with
    | none => simp [ih]
    | some idx =>
      cases hget : record[idx]? with
      | none => simp [hget]
      | some value => by_cases hv : value = "" <;> simp [hget, hv, ih]

/-- With every mapped position inside the record, `setFields` does not panic. -/
theorem setFields_isSome (S : GoStrings) (headerMap : GoMap Nat) (record : List String)
    (fields : List FieldConfig) (doc : Document)
    (hb : ∀ f ∈ fields, ∀ idx, headerMap (S.ToLower f.CSVName) = some idx → idx < record.length) :
    ∃ d, setFields S headerMap record fields doc = some d := by
  induction fields generalizing doc with
  | nil => exact ⟨doc, rfl⟩
  | cons f rest ih =>
    have hrest : ∀ g ∈ rest, ∀ idx, headerMap (S.ToLower g.CSVName) = some idx →
        idx < record.length := fun g hg => hb g (List.mem_cons_of_mem _ hg)
    simp only [setFields]
    cases hk : headerMap (S.ToLower f.CSVName) with
    | none => exact ih doc hrest
    | some idx =>
      have hlt := hb f (List.mem_cons_self _ _) idx hk
      have hget : record[idx]? = some record[idx] := List.getElem?_eq_getElem hlt
      simp only [hget]
      split
      · exact ih _ hrest
      · exact ih _ hrest

/-- One step of `setFields`: the field sets its name to its non-empty cell, and
leaves the document as it is otherwise. -/
theorem setFields_single (S : GoStrings) (headerMap : GoMap Nat) (record : List String)
    (g : FieldConfig) (d0 d : Document) (h : setFields S headerMap record [g] d0 = some d)
    (n v : String) :
    d.Fields n = some v ↔
      (g.Name = n ∧ v ≠ "" ∧
        ∃ idx, headerMap (S.ToLower g.CSVName) = some idx ∧ record[idx]? = some v) ∨
      ((g.Name = n → ∀ idx w, headerMap (S.ToLower g.CSVName) = some idx →
          record[idx]? = some w → w = "") ∧ d0.Fields n = some v) := by
  simp only [setFields] at h
  cases hk : headerMap (S.ToLower g.CSVName) with
  | none =>
    simp only [hk, Option.some.injEq] at h
    subst h
    simp
  | some idx =>
    simp only [hk] at h
    cases hget2 : record[idx]? with
    | none => simp [hget2] at h
    | some value =>
      simp only [hget2] at h
      by_cases hv : value = ""
      · simp only [hv, ne_eq, not_true_eq_false, if_false, Option.some.injEq] at h
        subst h
        subst hv
        constructor
        · intro hd
          right
          refine ⟨?_, hd⟩
          intro _ idx2 w h1 h2
          simp only [Option.some.injEq] at h1
          subst h1
          rw [hget2] at h2
          exact (Option.some.inj h2).symm
        · rintro (⟨_, hne, idx2, h1, h2⟩ | ⟨_, hd⟩)
          · simp only [Option.some.injEq] at h1
            subst h1
            rw [hget2] at h2
            exact absurd (Option.some.inj h2).symm hne
          · exact hd
      · simp only [ne_eq, hv, not_false_eq_true, if_true, Option.some.injEq] at h
        subst h
        by_cases hn : n = g.Name
        · subst hn
          simp only [Document.SetField, GoMap.set, if_true, Option.some.injEq, true_and,
            forall_const]
          constructor
          · intro hvv
            subst hvv
            exact Or.inl ⟨hv, idx, rfl, hget2⟩
          · rintro (⟨_, idx2, h1, h2⟩ | ⟨hall, _⟩)
            · subst h1
              rw [hget2] at h2
              exact Option.some.inj h2
            · exact absurd (hall idx value rfl hget2) hv
        · have hn2 : ¬ g.Name = n := fun e => hn e.symm
          simp [Document.SetField, GoMap.set, hn, hn2]

/-- The value of a field name after `setFields`: the cell of the last field of
the schema that sets this name, or the value the document had. -/
theorem setFields_lookup (S : GoStrings) (headerMap : GoMap Nat) (record : List String)
    (fields : List FieldConfig) (doc d : Document)
    (h : setFields S headerMap record fields doc = some d) (n v : String) :
    d.Fields n = some v ↔
      (∃ pre f post, fields = pre ++ f :: post ∧ f.Name = n ∧ v ≠ "" ∧
        (∃ idx, headerMap (S.ToLower f.CSVName) = some idx ∧ record[idx]? = some v) ∧
        ∀ g ∈ post, g.Name = n → ∀ idx w, headerMap (S.ToLower g.CSVName) = some idx →
          record[idx]? = some w → w = "") ∨
      ((∀ g ∈ fields, g.Name = n → ∀ idx w, headerMap (S.ToLower g.CSVName) = some idx →
          record[idx]? = some w → w = "") ∧ doc.Fields n = some v) := by
  induction fields using List.reverseRecOn generalizing d with
  | nil =>
    simp only [setFields, Option.some.injEq] at h
    subst h
    simp
  | append_singleton init g ih =>
    rw [setFields_append] at h
    cases h0 : setFields S headerMap record init doc with
    | none => simp [h0] at h
    | some d0 =>
      simp only [h0, Option.some_bind] at h
      rw [setFields_single S headerMap record g d0 d h n v, ih d0 h0]
      constructor
      · rintro (⟨hn, hv, hidx⟩ | ⟨hg, ⟨pre, f, post, hsplit, hfn, hv, hidx, hpost⟩ | ⟨hno, hdoc⟩⟩)
        · exact Or.inl ⟨init, g, [], rfl, hn, hv, hidx, by simp⟩
        · left
          refine ⟨pre, f, post ++ [g], by simp [hsplit], hfn, hv, hidx, ?_⟩
          intro e he
          rcases List.mem_append.1 he with h1 | h1
          · exact hpost e h1
          · simp only [List.mem_singleton] at h1
            subst h1
            exact hg
        · right
          refine ⟨?_, hdoc⟩
          intro e he
          rcases List.mem_append.1 he with h1 | h1
          · exact hno e h1
          · simp only [List.mem_singleton] at h1
            subst h1
            exact hg
      · rintro (⟨pre, f, post, hsplit, hfn, hv, hidx, hpost⟩ | ⟨hno, hdoc⟩)
        · rcases List.eq_nil_or_concat post with hp | ⟨post1, e, hp⟩
          · subst hp
            have h3 := List.append_inj_right' hsplit (by simp)
            simp only [List.cons.injEq, and_true] at h3
            subst h3
            exact Or.inl ⟨hfn, hv, hidx⟩
          · subst hp
            have h2 : init ++ [g] = (pre ++ f :: post1) ++ [e] := by simpa using hsplit
            have h3 := List.append_inj_left' h2 (by simp)
            have h4 := List.append_inj_right' h2 (by simp)
            simp only [List.cons.injEq, and_true] at h4
            subst h4
            right
            refine ⟨hpost g (by simp), Or.inl ⟨pre, f, post1, h3, hfn, hv, hidx, ?_⟩⟩
            exact fun e he => hpost e (by simp [he])
        · right
          exact ⟨hno g (by simp), Or.inr ⟨fun e he => hno e (by simp [he]), hdoc⟩⟩

/-- The base name of a path is never the empty string. -/
theorem base_ne_empty (path : String) : Base path ≠ "" := by
  unfold Base
  by_cases h1 : path.data.isEmpty = true
  · rw [if_pos h1]; decide
  · rw [if_neg h1]
    simp only
    split
    · decide
    · rename_i h2
      intro h
      have hd := congrArg String.data h
      apply h2
      rw [List.isEmpty_iff]
      exact hd

/-- The base name of a path has no separator, unless it is the root `/`. -/
theorem base_no_separator (path : String) : Base path = "/" ∨ ¬ '/' ∈ (Base path).data := by
  unfold Base
  by_cases h1 : path.data.isEmpty = true
  · rw [if_pos h1]; right; decide
  · rw [if_neg h1]
    simp only
    split
    · left; rfl
    · right
      intro hmem
      simp only [List.mem_reverse] at hmem
      have := List.mem_takeWhile_imp hmem
      simp at this

/-- A document built from a record holds the base name under `source_csv`. -/
theorem buildDocument_source (S : GoStrings) (fields : List FieldConfig) (sourceFile : String)
    (headerMap : GoMap Nat) (record : List String) (doc : Document)
    (h : buildDocument S fields sourceFile headerMap record = some doc) :
    doc.Fields "source_csv" = some sourceFile := by
  unfold buildDocument at h
  split at h
  · simp at h
  · simp only [Option.some.injEq] at h
    subst h
    simp [Document.SetField, GoMap.set]

/-- A document built from a record holds, under any other name, what
`setFields` stored. -/
theorem buildDocument_other (S : GoStrings) (fields : List FieldConfig) (sourceFile : String)
    (headerMap : GoMap Nat) (record : List String) (doc : Document)
    (h : buildDocument S fields sourceFile headerMap record = some doc) :
    ∃ d, setFields S headerMap (record.map cleanString) fields NewDocument = some d ∧
      ∀ n, n ≠ "source_csv" → doc.Fields n = d.Fields n := by
  unfold buildDocument at h
  split at h
  · simp at h
  · rename_i d hd
    simp only [Option.some.injEq] at h
    subst h
    refine ⟨d, hd, ?_⟩
    intro n hn
    simp [Document.SetField, GoMap.set, hn]

/-- With every mapped position inside the record, a document is built. -/
theorem buildDocument_isSome (S : GoStrings) (fields : List FieldConfig) (sourceFile : String)
    (headerMap : GoMap Nat) (record : List String)
    (hb : ∀ f ∈ fields, ∀ idx, headerMap (S.ToLower f.CSVName) = some idx → idx < record.length) :
    ∃ doc, buildDocument S fields sourceFile headerMap record = some doc := by
  obtain ⟨d, hd⟩ := setFields_isSome S headerMap (record.map cleanString) fields NewDocument
    (by simpa using hb)
  exact ⟨d.SetField "source_csv" sourceFile, by simp [buildDocument, hd]⟩

/-- The documents of the read loop: the ones it started with, then one per
record read without error, in order. -/
theorem readLoop_forall (S : GoStrings) (fields : List FieldConfig) (sourceFile : String)
    (headerMap : GoMap Nat) (rows : List RowResult) (acc out : List Document)
    (h : readLoop S fields sourceFile headerMap rows acc = some out) :
    ∃ docs, out = acc ++ docs ∧
      List.Forall₂ (fun record doc => buildDocument S fields sourceFile headerMap record = some doc)
        (goodRows rows) docs := by
  induction rows generalizing acc with
  | nil =>
    simp only [readLoop, Option.some.injEq] at h
    exact ⟨[], by simp [h], by simp [goodRows]⟩
  | cons r rest ih =>
    cases r with
    | bad err =>
      simp only [readLoop] at h
      simpa [goodRows] using ih acc h
    | row record =>
      simp only [readLoop] at h
      cases hb : buildDocument S fields sourceFile headerMap record with
      | none => simp [hb] at h
      | some doc =>
        simp only [hb] at h
        obtain ⟨docs, hout, hall⟩ := ih (acc ++ [doc]) h
        exact ⟨doc :: docs, by simp [hout], by simp [goodRows, hb, hall]⟩

/-- The read loop returns when every record read without error gives a document. -/
theorem readLoop_isSome (S : GoStrings) (fields : List FieldConfig) (sourceFile : String)
    (headerMap : GoMap Nat) (rows : List RowResult) (acc : List Document)
    (hb : ∀ record ∈ goodRows rows,
      ∃ doc, buildDocument S fields sourceFile headerMap record = some doc) :
    ∃ out, readLoop S fields sourceFile headerMap rows acc = some out := by
  induction rows generalizing acc with
  | nil => exact ⟨acc, rfl⟩
  | cons r rest ih =>
    cases r with
    | bad err =>
      simp only [readLoop]
      exact ih acc (fun record hr => hb record (by simpa [goodRows] using hr))
    | row record =>
      obtain ⟨doc, hdoc⟩ := hb record (by simp [goodRows])
      simp only [readLoop, hdoc]
      exact ih _ (fun r hr => hb r (by simp [goodRows, hr]))

/-- The result of `ProcessRecords`, from the result of its read loop. -/
theorem processRecords_eq (S : GoStrings) (s : Service) (headerMap : GoMap Nat)
    (docs : List Document) (err : Option String) (s1 : Service)
    (h : ProcessRecords S s headerMap = some ((docs, err), s1)) :
    readLoop S s.config.Fields (Base s.config.CSVFilePath) headerMap s.reader.pending [] = some docs
      ∧ err = none := by
  unfold ProcessRecords at h
  split at h
  · simp at h
  · rename_i documents hd
    simp only [Option.some.injEq, Prod.mk.injEq] at h
    obtain ⟨⟨h1, h2⟩, _⟩ := h
    subst h1
    exact ⟨hd, h2.symm⟩

/-- Related lists: every element on the right has a partner on the left. -/
theorem forall₂_partner {α β : Type} (R : α → β → Prop) (l1 : List α) (l2 : List β)
    (h : List.Forall₂ R l1 l2) : ∀ b ∈ l2, ∃ a ∈ l1, R a b := by
  induction h with
  | nil => simp
  | cons hab _ ih =>
    intro b hb
    rcases List.mem_cons.1 hb with rfl | hin
    · exact ⟨_, List.mem_cons_self _ _, hab⟩
    · obtain ⟨a, ha, hR⟩ := ih b hin
      exact ⟨a, List.mem_cons_of_mem _ ha, hR⟩

/-- Related lists are related position by position. -/
theorem forall₂_index {α β : Type} (R : α → β → Prop) (l1 : List α) (l2 : List β)
    (h : List.Forall₂ R l1 l2) :
    l2.length = l1.length ∧ ∀ (k : Nat) (a : α), l1[k]? = some a → ∃ b, l2[k]? = some b ∧ R a b := by
  induction h with
  | nil => simp
  | cons hab _ ih =>
    refine ⟨by simp [ih.1], ?_⟩
    intro k a hk
    cases k with
    | zero =>
      simp only [List.getElem?_cons_zero, Option.some.injEq] at hk
      subst hk
      exact ⟨_, by simp, hab⟩
    | succ k =>
      simp only [List.getElem?_cons_succ] at hk
      simpa using ih.2 k a hk

/-- Every document returned by `ProcessRecords` is built from a record read
without error. -/
theorem processRecords_built (S : GoStrings) (s : Service) (headerMap : GoMap Nat)
    (docs : List Document) (err : Option String) (s1 : Service)
    (h : ProcessRecords S s headerMap = some ((docs, err), s1)) :
    ∀ doc ∈ docs, ∃ record ∈ goodRows s.reader.pending,
      buildDocument S s.config.Fields (Base s.config.CSVFilePath) headerMap record = some doc := by
  obtain ⟨hloop, _⟩ := processRecords_eq S s headerMap docs err s1 h
  obtain ⟨docs1, hout, hall⟩ := readLoop_forall S _ _ headerMap _ [] docs hloop
  simp only [List.nil_append] at hout
  subst hout
  exact forall₂_partner _ _ _ hall

/-- With every mapped position inside every record read without error,
`ProcessRecords` returns one document per such record, in order, and no error. -/
theorem processRecords_some (S : GoStrings) (s : Service) (headerMap : GoMap Nat)
    (hb : ∀ record ∈ goodRows s.reader.pending, ∀ f ∈ s.config.Fields, ∀ idx,
      headerMap (S.ToLower f.CSVName) = some idx → idx < record.length) :
    ∃ docs, ProcessRecords S s headerMap = some ((docs, none), { s with reader := ⟨[]⟩ }) ∧
      List.Forall₂
        (fun record doc =>
          buildDocument S s.config.Fields (Base s.config.CSVFilePath) headerMap record = some doc)
        (goodRows s.reader.pending) docs := by
  obtain ⟨out, hout⟩ := readLoop_isSome S s.config.Fields (Base s.config.CSVFilePath) headerMap
    s.reader.pending []
    (fun record hr => buildDocument_isSome S _ _ headerMap record (hb record hr))
  obtain ⟨docs, hd, hall⟩ := readLoop_forall S _ _ headerMap _ [] out hout
  simp only [List.nil_append] at hd
  subst hd
  exact ⟨out, by simp [ProcessRecords, hout], hall⟩

/-! ## Schema inference (C9) -/

/-- C9. `DetectFields header` is the list of the cleaned cells, without the
cells that clean to the empty string and in the original order, each as a
field with `Name = CSVName =` the cleaned text and `Required = false`; the
header `["Name", " Email ", "", "Email"]` gives exactly the three fields
named `Name`, `Email`, `Email`, in this order. -/
theorem detectFields_spec :
    (∀ header : List String,
      DetectFields header =
        ((header.map cleanString).filter (fun n => decide (n ≠ ""))).map
          (fun n => { Name := n, Required := false, CSVName := n })) ∧
    DetectFields ["Name", " Email ", "", "Email"] =
      [{ Name := "Name", Required := false, CSVName := "Name" },
       { Name := "Email", Required := false, CSVName := "Email" },
       { Name := "Email", Required := false, CSVName := "Email" }] := by
  refine ⟨?_, by decide⟩
  intro header
  induction header with
  | nil => rfl
  | cons h rest ih =>
    by_cases hn : cleanString h = "" <;> simp [DetectFields, hn, ih]

/-! ## Header mapping (C6, C7) -/

/-- C7. For every header row read without error, the header map built by
`ProcessHeader` has exactly the keys `ToLower (cleanString cell)` of the cells
whose cleaned text is non-empty, and a key maps to the largest zero-based
position of a cell that gives this key (a later cell overwrites an earlier
one). `ProcessHeader` returns this map, unless a required field of the
schema has no key in it, in which case it returns an error. -/
theorem processHeader_index (S : GoStrings) (cfg : Config) (header : List String)
    (rest : List RowResult) :
    ∃ headerMap : GoMap Nat,
      (∀ k, (headerMap k).isSome ↔
        ∃ cell ∈ header, cleanString cell ≠ "" ∧ S.ToLower (cleanString cell) = k) ∧
      (∀ k i, headerMap k = some i ↔
        (∃ cell, header[i]? = some cell ∧ cleanString cell ≠ "" ∧
          S.ToLower (cleanString cell) = k) ∧
        ∀ j cell, i < j → header[j]? = some cell → cleanString cell ≠ "" →
          S.ToLower (cleanString cell) ≠ k) ∧
      ((ProcessHeader S ⟨cfg, ⟨.row header :: rest⟩⟩).1 = .ok headerMap ∨
        ((∃ e, (ProcessHeader S ⟨cfg, ⟨.row header :: rest⟩⟩).1 = .error e) ∧
          ∃ f ∈ cfg.Fields, f.Required = true ∧ headerMap (S.ToLower f.CSVName) = none)) := by
  refine ⟨fillHeaderMap S (header.map cleanString) 0 GoMap.empty, ?_, ?_, ?_⟩
  · intro k
    rw [fill_isSome]
    simp [GoMap.empty]
  · intro k i
    rw [fill_index]
    simp only [List.getElem?_map, Option.map_eq_some']
    constructor
    · rintro ⟨⟨c, ⟨cell, hcell, rfl⟩, h1, h2⟩, hlast⟩
      refine ⟨⟨cell, hcell, h1, h2⟩, ?_⟩
      intro j d hj hd
      exact hlast j (cleanString d) hj ⟨d, hd, rfl⟩
    · rintro ⟨⟨cell, hcell, h1, h2⟩, hlast⟩
      refine ⟨⟨cleanString cell, ⟨cell, hcell, rfl⟩, h1, h2⟩, ?_⟩
      rintro j d hj ⟨d0, hd0, rfl⟩
      exact hlast j d0 hj hd0
  · rw [processHeader_row_fst]
    cases hv : validateRequired S (fillHeaderMap S (header.map cleanString) 0 GoMap.empty)
        (if cfg.Fields.length = 0 then DetectFields (header.map cleanString)
          else cfg.Fields) with
    | none => left; rfl
    | some err =>
      right
      refine ⟨⟨err, rfl⟩, ?_⟩
      have hne : ¬ validateRequired S (fillHeaderMap S (header.map cleanString) 0 GoMap.empty)
          (if cfg.Fields.length = 0 then DetectFields (header.map cleanString)
            else cfg.Fields) = none := by rw [hv]; exact fun h => Option.noConfusion h
      rw [validateRequired_eq_none] at hne
      push_neg at hne
      obtain ⟨f, hf, hreq, hmiss⟩ := hne
      by_cases h0 : cfg.Fields.length = 0
      · rw [if_pos h0] at hf
        have := detectFields_not_required _ f hf
        simp [this] at hreq
      · rw [if_neg h0] at hf
        exact ⟨f, hf, hreq, hmiss⟩

/-- C6. For every header row read without error and every configured schema,
`ProcessHeader` returns an error, and no header map, if and only if some field
of the schema it validates (the configured one, or the detected one when none
is configured) is required and its lower-cased `CSVName` is not a key of the
header map; otherwise it returns the header map. The header `["id","Name"]`
with a required field of `CSVName` `id` succeeds, and the header `["Name"]`
with the same field fails. -/
theorem processHeader_required :
    (∀ (S : GoStrings) (cfg : Config) (header : List String) (rest : List RowResult),
      ((∃ e, (ProcessHeader S ⟨cfg, ⟨.row header :: rest⟩⟩).1 = .error e) ↔
        ∃ f ∈ (ProcessHeader S ⟨cfg, ⟨.row header :: rest⟩⟩).2.config.Fields,
          f.Required = true ∧
          fillHeaderMap S (header.map cleanString) 0 GoMap.empty (S.ToLower f.CSVName) = none) ∧
      ((∀ f ∈ (ProcessHeader S ⟨cfg, ⟨.row header :: rest⟩⟩).2.config.Fields,
          f.Required = true →
          fillHeaderMap S (header.map cleanString) 0 GoMap.empty (S.ToLower f.CSVName) ≠ none) →
        (ProcessHeader S ⟨cfg, ⟨.row header :: rest⟩⟩).1 =
          .ok (fillHeaderMap S (header.map cleanString) 0 GoMap.empty)) ∧
      (∀ e, (ProcessHeader S ⟨cfg, ⟨.row header :: rest⟩⟩).1 = .error e →
        runPipeline S ⟨cfg, ⟨.row header :: rest⟩⟩ =
          .error ("Error processing CSV header: " ++ e))) ∧
    (∀ (S : GoStrings) (path name : String) (rest : List RowResult),
      ∃ headerMap,
        (ProcessHeader S
          ⟨{ CSVFilePath := path, Fields := [{ Name := name, Required := true, CSVName := "id" }],
             FieldConfigPath := "", SelectedFields := [] },
           ⟨.row ["id", "Name"] :: rest⟩⟩).1 = .ok headerMap) ∧
    (∀ (S : GoStrings) (path name : String) (rest : List RowResult),
      S.ToLower "id" ≠ S.ToLower "Name" →
      (ProcessHeader S
        ⟨{ CSVFilePath := path, Fields := [{ Name := name, Required := true, CSVName := "id" }],
           FieldConfigPath := "", SelectedFields := [] },
         ⟨.row ["Name"] :: rest⟩⟩).1 = .error "required field 'id' not found in CSV header") := by
  refine ⟨?_, ?_, ?_⟩
  · intro S cfg header rest
    have hrun : ∀ e, (ProcessHeader S ⟨cfg, ⟨.row header :: rest⟩⟩).1 = .error e →
        runPipeline S ⟨cfg, ⟨.row header :: rest⟩⟩ =
          .error ("Error processing CSV header: " ++ e) := by
      intro e he
      unfold runPipeline
      split
      · rename_i err s1 hp
        rw [hp] at he
        simp only [Except.error.injEq] at he
        rw [he]
      · rename_i hm s1 hp
        rw [hp] at he
        simp at he
    rw [processHeader_row_fst, processHeader_row_snd] at *
    cases hv : validateRequired S (fillHeaderMap S (header.map cleanString) 0 GoMap.empty)
        (if cfg.Fields.length = 0 then DetectFields (header.map cleanString)
          else cfg.Fields) with
    | none =>
      have h := (validateRequired_eq_none S _ _).1 hv
      refine ⟨⟨fun ⟨e, he⟩ => by simp at he, ?_⟩, fun _ => rfl, fun e he => by simp at he⟩
      rintro ⟨f, hf, hreq, hmiss⟩
      exact absurd hmiss (h f hf hreq)
    | some err =>
      have hne : ¬ validateRequired S (fillHeaderMap S (header.map cleanString) 0 GoMap.empty)
          (if cfg.Fields.length = 0 then DetectFields (header.map cleanString)
            else cfg.Fields) = none := by rw [hv]; exact fun h => Option.noConfusion h
      rw [validateRequired_eq_none] at hne
      push_neg at hne
      obtain ⟨f, hf, hreq, hmiss⟩ := hne
      rw [hv] at hrun
      refine ⟨⟨fun _ => ⟨f, hf, hreq, hmiss⟩, fun _ => ⟨err, rfl⟩⟩, ?_, hrun⟩
      intro hall
      exact absurd hmiss (hall f hf hreq)
  · intro S path name rest
    refine ⟨fillHeaderMap S (["id", "Name"].map cleanString) 0 GoMap.empty, ?_⟩
    rw [processHeader_row_fst]
    have hv : validateRequired S (fillHeaderMap S (["id", "Name"].map cleanString) 0 GoMap.empty)
        [{ Name := name, Required := true, CSVName := "id" }] = none := by
      rw [validateRequired_eq_none]
      intro f hf _
      simp only [List.mem_singleton] at hf
      subst hf
      have hs := (fill_isSome S (["id", "Name"].map cleanString) 0 GoMap.empty
        (S.ToLower "id")).2 (Or.inl ⟨"id", by decide, by decide, rfl⟩)
      intro hnone
      simp only at hnone
      rw [hnone] at hs
      simp at hs
    simp only [List.length_singleton, one_ne_zero, if_false]
    rw [hv]
  · intro S path name rest hdiff
    rw [processHeader_row_fst]
    have hcl : ["Name"].map cleanString = ["Name"] := by decide
    have hmiss : fillHeaderMap S ["Name"] 0 GoMap.empty (S.ToLower "id") = none := by
      simp [fillHeaderMap, GoMap.set, GoMap.empty, hdiff]
    simp only [List.length_singleton, one_ne_zero, if_false, hcl]
    simp only [validateRequired, if_true, hmiss]
    rfl

/-! ## Record assembly (C1 to C4) -/

/-- C1. `ProcessRecords` on one row read without error, for every header map
and schema whose mapped positions lie inside the row: it returns one document,
and for every name `n` other than `source_csv` the document has `n` if and
only if some schema field named `n` has its lower-cased `CSVName` in the header
map with a non-empty cleaned cell at that column; the value is the cleaned
cell of the last such field in schema order. -/
theorem processRecords_row (S : GoStrings) (cfg : Config) (headerMap : GoMap Nat)
    (record : List String)
    (hb : ∀ f ∈ cfg.Fields, ∀ idx, headerMap (S.ToLower f.CSVName) = some idx →
      idx < record.length) :
    ∃ doc s1, ProcessRecords S ⟨cfg, ⟨[.row record]⟩⟩ headerMap = some (([doc], none), s1) ∧
      ∀ n, n ≠ "source_csv" →
        ((doc.Fields n).isSome ↔
          ∃ f ∈ cfg.Fields, f.Name = n ∧ ∃ idx cell,
            headerMap (S.ToLower f.CSVName) = some idx ∧ record[idx]? = some cell ∧
            cleanString cell ≠ "") ∧
        (∀ pre f post idx cell, cfg.Fields = pre ++ f :: post → f.Name = n →
          headerMap (S.ToLower f.CSVName) = some idx → record[idx]? = some cell →
          cleanString cell ≠ "" →
          (∀ g ∈ post, g.Name = n → ∀ j c, headerMap (S.ToLower g.CSVName) = some j →
            record[j]? = some c → cleanString c = "") →
          doc.Fields n = some (cleanString cell)) := by
  obtain ⟨doc, hdoc⟩ := buildDocument_isSome S cfg.Fields (Base cfg.CSVFilePath) headerMap
    record hb
  refine ⟨doc, ⟨cfg, ⟨[]⟩⟩, by simp [ProcessRecords, readLoop, hdoc], ?_⟩
  obtain ⟨d, hd, hsame⟩ := buildDocument_other S cfg.Fields (Base cfg.CSVFilePath) headerMap
    record doc hdoc
  intro n hn
  rw [hsame n hn]
  have hlook := setFields_lookup S headerMap (record.map cleanString) cfg.Fields NewDocument d hd n
  have hnew : ∀ v, ¬ NewDocument.Fields n = some v := by simp [NewDocument, GoMap.empty]
  refine ⟨⟨?_, ?_⟩, ?_⟩
  · intro hsome
    obtain ⟨v, hv⟩ := Option.isSome_iff_exists.1 hsome
    rcases (hlook v).1 hv with ⟨pre, f, post, hsplit, hfn, hne, ⟨idx, hk, hcell⟩, _⟩ | ⟨_, h0⟩
    · simp only [List.getElem?_map, Option.map_eq_some'] at hcell
      obtain ⟨cell, hcell, rfl⟩ := hcell
      exact ⟨f, by simp [hsplit], hfn, idx, cell, hk, hcell, hne⟩
    · exact absurd h0 (hnew v)
  · rintro ⟨f, hf, hfn, idx, cell, hk, hcell, hne⟩
    obtain ⟨pre, f1, post, hsplit, ⟨hfn1, idx1, w, hk1, hw, hwne⟩, hpost⟩ :=
      exists_last_split
        (fun g => g.Name = n ∧ ∃ idx w, headerMap (S.ToLower g.CSVName) = some idx ∧
          (record.map cleanString)[idx]? = some w ∧ w ≠ "")
        cfg.Fields ⟨f, hf, hfn, idx, cleanString cell, hk, by simp [hcell], hne⟩
    have : d.Fields n = some w := by
      refine (hlook w).2 (Or.inl ⟨pre, f1, post, hsplit, hfn1, hwne, ⟨idx1, hk1, hw⟩, ?_⟩)
      intro g hg hgn j u hj hu
      by_contra hune
      exact hpost g hg ⟨hgn, j, u, hj, hu, hune⟩
    simp [this]
  · intro pre f post idx cell hsplit hfn hk hcell hne hpost
    refine (hlook (cleanString cell)).2
      (Or.inl ⟨pre, f, post, hsplit, hfn, hne, ⟨idx, hk, by simp [hcell]⟩, ?_⟩)
    intro g hg hgn j u hj hu
    simp only [List.getElem?_map, Option.map_eq_some'] at hu
    obtain ⟨c, hc, rfl⟩ := hu
    exact hpost g hg hgn j c hj hc

/-- The mapped positions of the concrete schema lie inside a two-cell record. -/
theorem demo_in_bounds (record : List String) (hlen : record.length = 2) :
    ∀ f ∈ demoConfig.Fields, ∀ idx,
      demoHeaderMap (GoStrings.ascii.ToLower f.CSVName) = some idx → idx < record.length := by
  intro f hf idx h
  simp only [demoConfig, List.mem_cons, List.mem_singleton, List.not_mem_nil, or_false] at hf
  have e1 : GoStrings.ascii.ToLower "ID" = "id" := by decide
  have e2 : GoStrings.ascii.ToLower "Name" = "name" := by decide
  rcases hf with rfl | rfl
  · simp only [e1, demoHeaderMap, if_true, Option.some.injEq] at h
    omega
  · have e3 : ¬ ("name" : String) = "id" := by decide
    simp only [e2, demoHeaderMap, e3, if_false, if_true, Option.some.injEq] at h
    omega

/-- Witness of C1 on the record `["1", " Alice "]`. -/
theorem processRecords_row_witness :
    (∀ f ∈ demoConfig.Fields, ∀ idx,
      demoHeaderMap (GoStrings.ascii.ToLower f.CSVName) = some idx →
        idx < ["1", " Alice "].length) ∧
    ∃ doc s1, ProcessRecords GoStrings.ascii ⟨demoConfig, ⟨[.row ["1", " Alice "]]⟩⟩
        demoHeaderMap = some (([doc], none), s1) ∧
      ∀ n, n ≠ "source_csv" →
        ((doc.Fields n).isSome ↔
          ∃ f ∈ demoConfig.Fields, f.Name = n ∧ ∃ idx cell,
            demoHeaderMap (GoStrings.ascii.ToLower f.CSVName) = some idx ∧
            ["1", " Alice "][idx]? = some cell ∧ cleanString cell ≠ "") ∧
        (∀ pre f post idx cell, demoConfig.Fields = pre ++ f :: post → f.Name = n →
          demoHeaderMap (GoStrings.ascii.ToLower f.CSVName) = some idx →
          ["1", " Alice "][idx]? = some cell → cleanString cell ≠ "" →
          (∀ g ∈ post, g.Name = n → ∀ j c,
            demoHeaderMap (GoStrings.ascii.ToLower g.CSVName) = some j →
            ["1", " Alice "][j]? = some c → cleanString c = "") →
          doc.Fields n = some (cleanString cell)) :=
  ⟨demo_in_bounds _ rfl,
    processRecords_row GoStrings.ascii demoConfig demoHeaderMap ["1", " Alice "]
      (demo_in_bounds _ rfl)⟩

/-- `ProcessRecords` on the concrete reader state. -/
theorem demo_processRecords :
    ProcessRecords GoStrings.ascii demoService demoHeaderMap =
      some ((demoDocuments, none), ⟨demoConfig, ⟨[]⟩⟩) := by
  rfl

/-- C2. For every header map, schema and sequence of rows, no document returned
by `ProcessRecords` maps a field name to the empty string. The documents
stand, position by position, for the records read without error, and in the
document of a record a name other than `source_csv` is absent when the cell
of every schema field with that name cleans to `""`; a value that is stored
is the non-empty cleaned cell of a schema field with that name. -/
theorem processRecords_no_empty (S : GoStrings) (s : Service) (headerMap : GoMap Nat)
    (docs : List Document) (err : Option String) (s1 : Service)
    (h : ProcessRecords S s headerMap = some ((docs, err), s1)) :
    (∀ doc ∈ docs, ∀ n, doc.Fields n ≠ some "") ∧
    docs.length = (goodRows s.reader.pending).length ∧
    ∀ (k : Nat) (record : List String), (goodRows s.reader.pending)[k]? = some record →
      ∃ doc, docs[k]? = some doc ∧ ∀ n, n ≠ "source_csv" →
        ((∀ f ∈ s.config.Fields, f.Name = n → ∀ idx cell,
            headerMap (S.ToLower f.CSVName) = some idx → record[idx]? = some cell →
            cleanString cell = "") →
          doc.Fields n = none) ∧
        (∀ v, doc.Fields n = some v →
          v ≠ "" ∧ ∃ f ∈ s.config.Fields, f.Name = n ∧ ∃ idx cell,
            headerMap (S.ToLower f.CSVName) = some idx ∧ record[idx]? = some cell ∧
            cleanString cell = v) := by
  have hstored : ∀ (record : List String) (doc : Document),
      buildDocument S s.config.Fields (Base s.config.CSVFilePath) headerMap record = some doc →
      ∀ n, n ≠ "source_csv" → ∀ v, doc.Fields n = some v →
        v ≠ "" ∧ ∃ f ∈ s.config.Fields, f.Name = n ∧ ∃ idx cell,
          headerMap (S.ToLower f.CSVName) = some idx ∧ record[idx]? = some cell ∧
          cleanString cell = v := by
    intro record doc hbuild n hn v hv
    obtain ⟨d, hd, hsame⟩ := buildDocument_other S _ _ headerMap record doc hbuild
    rw [hsame n hn] at hv
    rcases (setFields_lookup S headerMap _ _ NewDocument d hd n v).1 hv with
      ⟨pre, f, post, hsplit, hfn, hne, ⟨idx, hk, hcell⟩, _⟩ | ⟨_, h0⟩
    · simp only [List.getElem?_map, Option.map_eq_some'] at hcell
      obtain ⟨cell, hcell, hclean⟩ := hcell
      exact ⟨hne, f, by simp [hsplit], hfn, idx, cell, hk, hcell, hclean⟩
    · simp [NewDocument, GoMap.empty] at h0
  obtain ⟨hloop, _⟩ := processRecords_eq S s headerMap docs err s1 h
  obtain ⟨docs1, hout, hall⟩ := readLoop_forall S _ _ headerMap _ [] docs hloop
  simp only [List.nil_append] at hout
  subst hout
  obtain ⟨hlen, hidx⟩ := forall₂_index _ _ _ hall
  refine ⟨?_, hlen, ?_⟩
  · intro doc hdoc n hempty
    obtain ⟨record, _, hbuild⟩ := forall₂_partner _ _ _ hall doc hdoc
    by_cases hn : n = "source_csv"
    · subst hn
      rw [buildDocument_source S _ _ headerMap record doc hbuild] at hempty
      exact base_ne_empty _ (Option.some.inj hempty)
    · exact (hstored record doc hbuild n hn "" hempty).1 rfl
  · intro k record hk
    obtain ⟨doc, hdoc, hbuild⟩ := hidx k record hk
    refine ⟨doc, hdoc, ?_⟩
    intro n hn
    refine ⟨?_, hstored record doc hbuild n hn⟩
    intro hblank
    cases hv : doc.Fields n with
    | none => rfl
    | some v =>
      obtain ⟨hne, f, hf, hfn, idx, cell, hkey, hcell, hclean⟩ :=
        hstored record doc hbuild n hn v hv
      rw [hblank f hf hfn idx cell hkey hcell] at hclean
      exact absurd hclean.symm hne

/-- `ProcessRecords` on the reader state with blank cells. -/
theorem blank_processRecords :
    ProcessRecords GoStrings.ascii blankService demoHeaderMap =
      some ((blankDocuments, none), ⟨blankService.config, ⟨[]⟩⟩) := by
  rfl

/-- Witness of C2 on the reader state with blank cells: the first record has
the cell `" \t "` in the column of `name`, and its document has no `name`. -/
theorem processRecords_no_empty_witness :
    ProcessRecords GoStrings.ascii blankService demoHeaderMap =
        some ((blankDocuments, none), ⟨blankService.config, ⟨[]⟩⟩) ∧
      (∀ doc ∈ blankDocuments, ∀ n, doc.Fields n ≠ some "") ∧
      blankDocuments.length = 2 ∧
      cleanString " \t " = "" ∧
      ∃ doc, blankDocuments[0]? = some doc ∧ doc.Fields "name" = none ∧
        doc.Fields "id" ≠ none := by
  have hthm := processRecords_no_empty GoStrings.ascii blankService demoHeaderMap
    blankDocuments none ⟨blankService.config, ⟨[]⟩⟩ blank_processRecords
  refine ⟨blank_processRecords, hthm.1, hthm.2.1, by decide, ?_⟩
  obtain ⟨doc, hdoc, hprop⟩ := hthm.2.2 0 ["1", " \t "] rfl
  refine ⟨doc, hdoc, ?_, ?_⟩
  · apply (hprop "name" (by decide)).1
    intro f hf hname idx cell hidx hcell
    simp only [blankService, List.mem_cons, List.mem_singleton, List.not_mem_nil,
      or_false] at hf
    rcases hf with rfl | rfl
    · exact absurd hname (by decide)
    · have e : GoStrings.ascii.ToLower "Name" = "name" := by decide
      have e3 : ¬ ("name" : String) = "id" := by decide
      simp only [e, demoHeaderMap, e3, if_false, if_true, Option.some.injEq] at hidx
      subst hidx
      simp only [List.getElem?_cons_succ, List.getElem?_cons_zero, Option.some.injEq] at hcell
      subst hcell
      decide
  · have hd : doc = (NewDocument.SetField "id" "1").SetField "source_csv" "file.csv" := by
      have h0 : blankDocuments[0]? =
          some ((NewDocument.SetField "id" "1").SetField "source_csv" "file.csv") := rfl
      rw [h0] at hdoc
      exact (Option.some.inj hdoc).symm
    rw [hd]
    simp [Document.SetField, GoMap.set]

/-- C3. Every document returned by `ProcessRecords` has the field `source_csv`,
and its value is the base name of the configured CSV file path, for every
schema (an empty one, or one with a field named `source_csv`, whose cell is
overwritten); the base name has no separator, unless the path is the root. -/
theorem processRecords_source (S : GoStrings) (s : Service) (headerMap : GoMap Nat)
    (docs : List Document) (err : Option String) (s1 : Service)
    (h : ProcessRecords S s headerMap = some ((docs, err), s1)) :
    (∀ doc ∈ docs, doc.Fields "source_csv" = some (Base s.config.CSVFilePath)) ∧
      (Base s.config.CSVFilePath = "/" ∨ ¬ '/' ∈ (Base s.config.CSVFilePath).data) := by
  refine ⟨?_, base_no_separator _⟩
  intro doc hdoc
  obtain ⟨record, _, hbuild⟩ := processRecords_built S s headerMap docs err s1 h doc hdoc
  exact buildDocument_source S _ _ headerMap record doc hbuild

/-- Witness of C3 on the concrete reader state, whose schema has a field named
`source_csv`. -/
theorem processRecords_source_witness :
    ProcessRecords GoStrings.ascii demoService demoHeaderMap =
        some ((demoDocuments, none), ⟨demoConfig, ⟨[]⟩⟩) ∧
      (∀ doc ∈ demoDocuments, doc.Fields "source_csv" = some (Base "data/file.csv")) ∧
      (Base "data/file.csv" = "/" ∨ ¬ '/' ∈ (Base "data/file.csv").data) :=
  ⟨demo_processRecords,
    processRecords_source GoStrings.ascii demoService demoHeaderMap demoDocuments none
      ⟨demoConfig, ⟨[]⟩⟩ demo_processRecords⟩

/-- C4. Malformed rows are skipped without failing the batch: for every finite
sequence of read results, with the mapped positions inside every record read
without error, `ProcessRecords` returns no error, as many documents as records
read without error, and the document at position `k` is the one built from
the record at position `k` among those. -/
theorem processRecords_skips (S : GoStrings) (s : Service) (headerMap : GoMap Nat)
    (hb : ∀ record ∈ goodRows s.reader.pending, ∀ f ∈ s.config.Fields, ∀ idx,
      headerMap (S.ToLower f.CSVName) = some idx → idx < record.length) :
    ∃ docs s1, ProcessRecords S s headerMap = some ((docs, none), s1) ∧
      docs.length = (goodRows s.reader.pending).length ∧
      ∀ (k : Nat) (record : List String), (goodRows s.reader.pending)[k]? = some record →
        ∃ doc, docs[k]? = some doc ∧
          buildDocument S s.config.Fields (Base s.config.CSVFilePath) headerMap record
            = some doc := by
  obtain ⟨docs, hres, hall⟩ := processRecords_some S s headerMap hb
  obtain ⟨hlen, hidx⟩ := forall₂_index _ _ _ hall
  exact ⟨docs, _, hres, hlen, hidx⟩

/-- The mapped positions lie inside the records of the concrete reader state. -/
theorem demo_service_in_bounds :
    ∀ record ∈ goodRows demoService.reader.pending, ∀ f ∈ demoService.config.Fields, ∀ idx,
      demoHeaderMap (GoStrings.ascii.ToLower f.CSVName) = some idx → idx < record.length := by
  intro record hr
  simp only [demoService, goodRows, List.mem_cons, List.mem_singleton, List.not_mem_nil,
    or_false] at hr
  rcases hr with rfl | rfl <;> exact demo_in_bounds _ rfl

/-- Witness of C4 on the concrete reader state: two records and one malformed row. -/
theorem processRecords_skips_witness :
    (goodRows demoService.reader.pending).length = 2 ∧
    ∃ docs s1, ProcessRecords GoStrings.ascii demoService demoHeaderMap
        = some ((docs, none), s1) ∧
      docs.length = (goodRows demoService.reader.pending).length ∧
      ∀ (k : Nat) (record : List String), (goodRows demoService.reader.pending)[k]? = some record →
        ∃ doc, docs[k]? = some doc ∧
          buildDocument GoStrings.ascii demoService.config.Fields
            (Base demoService.config.CSVFilePath) demoHeaderMap record = some doc :=
  ⟨rfl, processRecords_skips GoStrings.ascii demoService demoHeaderMap demo_service_in_bounds⟩

/-! ## End to end (C5) -/

/-- C5. With no external schema and a file whose base name is `file.csv`, the
header row `["id","name"]` followed by the rows `["1","Alice"]`, `["2",""]` and
the one-column row `["3"]` gives exactly two documents, in this order:
`id = "1"`, `name = "Alice"`, `source_csv = "file.csv"`, and `id = "2"`,
`source_csv = "file.csv"` with `name` absent; the third row is skipped. -/
theorem pipeline_end_to_end (S : GoStrings) (path : String) (hbase : Base path = "file.csv")
    (hlow : S.ToLower "id" ≠ S.ToLower "name") :
    csvResults 0 [["id", "name"], ["1", "Alice"], ["2", ""], ["3"]] =
      [.row ["id", "name"], .row ["1", "Alice"], .row ["2", ""],
        .bad "wrong number of fields"] ∧
    ∃ d1 d2,
      runPipeline S
        ⟨{ CSVFilePath := path, Fields := [], FieldConfigPath := "", SelectedFields := [] },
         ⟨csvResults 0 [["id", "name"], ["1", "Alice"], ["2", ""], ["3"]]⟩⟩
        = .ok (some ([d1, d2], none)) ∧
      (∀ k, d1.Fields k =
        if k = "id" then some "1" else if k = "name" then some "Alice"
        else if k = "source_csv" then some "file.csv" else none) ∧
      (∀ k, d2.Fields k =
        if k = "id" then some "2" else if k = "source_csv" then some "file.csv" else none) := by
  have hres : csvResults 0 [["id", "name"], ["1", "Alice"], ["2", ""], ["3"]] =
      [.row ["id", "name"], .row ["1", "Alice"], .row ["2", ""],
        .bad "wrong number of fields"] := by decide
  refine ⟨hres, ?_⟩
  rw [hres]
  have hclean : ["id", "name"].map cleanString = ["id", "name"] := by decide
  have hdet : DetectFields ["id", "name"] =
      [{ Name := "id", Required := false, CSVName := "id" },
       { Name := "name", Required := false, CSVName := "name" }] := by decide
  have hlow2 : S.ToLower "name" ≠ S.ToLower "id" := fun h => hlow h.symm
  have hid : fillHeaderMap S ["id", "name"] 0 GoMap.empty (S.ToLower "id") = some 0 := by
    simp [fillHeaderMap, GoMap.set, GoMap.empty, hlow]
  have hname : fillHeaderMap S ["id", "name"] 0 GoMap.empty (S.ToLower "name") = some 1 := by
    simp [fillHeaderMap, GoMap.set, GoMap.empty]
  have hph : ProcessHeader S
      ⟨{ CSVFilePath := path, Fields := [], FieldConfigPath := "", SelectedFields := [] },
       ⟨[.row ["id", "name"], .row ["1", "Alice"], .row ["2", ""],
         .bad "wrong number of fields"]⟩⟩ =
      (.ok (fillHeaderMap S ["id", "name"] 0 GoMap.empty),
       ⟨{ CSVFilePath := path,
          Fields := [{ Name := "id", Required := false, CSVName := "id" },
                     { Name := "name", Required := false, CSVName := "name" }],
          FieldConfigPath := "", SelectedFields := [] },
        ⟨[.row ["1", "Alice"], .row ["2", ""], .bad "wrong number of fields"]⟩⟩) := by
    refine Prod.ext ?_ ?_
    · rw [processHeader_row_fst]
      simp [hclean, hdet, validateRequired]
    · rw [processHeader_row_snd]
      simp [hclean, hdet]
  have hr1 : ["1", "Alice"].map cleanString = ["1", "Alice"] := by decide
  have hr2 : ["2", ""].map cleanString = ["2", ""] := by decide
  refine ⟨((NewDocument.SetField "id" "1").SetField "name" "Alice").SetField "source_csv" "file.csv",
    (NewDocument.SetField "id" "2").SetField "source_csv" "file.csv", ?_, ?_, ?_⟩
  · simp only [runPipeline, hph]
    simp [ProcessRecords, readLoop, buildDocument, setFields, hr1, hr2, hid, hname, hbase]
  · intro k
    by_cases h1 : k = "id"
    · subst h1; simp [Document.SetField, GoMap.set]
    · by_cases h2 : k = "name"
      · subst h2; simp [Document.SetField, GoMap.set]
      · by_cases h3 : k = "source_csv" <;>
          simp [Document.SetField, GoMap.set, NewDocument, GoMap.empty, h1, h2, h3]
  · intro k
    by_cases h1 : k = "id"
    · subst h1; simp [Document.SetField, GoMap.set]
    · by_cases h3 : k = "source_csv" <;>
        simp [Document.SetField, GoMap.set, NewDocument, GoMap.empty, h1, h3]

/-- Witness of C5 with the ASCII case functions and the path `/data/in/file.csv`. -/
theorem pipeline_end_to_end_witness :
    Base "/data/in/file.csv" = "file.csv" ∧
    GoStrings.ascii.ToLower "id" ≠ GoStrings.ascii.ToLower "name" ∧
    ∃ d1 d2,
      runPipeline GoStrings.ascii
        ⟨{ CSVFilePath := "/data/in/file.csv", Fields := [], FieldConfigPath := "",
           SelectedFields := [] },
         ⟨csvResults 0 [["id", "name"], ["1", "Alice"], ["2", ""], ["3"]]⟩⟩
        = .ok (some ([d1, d2], none)) ∧
      (∀ k, d1.Fields k =
        if k = "id" then some "1" else if k = "name" then some "Alice"
        else if k = "source_csv" then some "file.csv" else none) ∧
      (∀ k, d2.Fields k =
        if k = "id" then some "2" else if k = "source_csv" then some "file.csv" else none) :=
  ⟨by decide, by decide,
    (pipeline_end_to_end GoStrings.ascii "/data/in/file.csv" (by decide) (by decide)).2⟩

/-! ## Matching of schema names and header cells (C8) -/

/-- C8, counterexample. The `CSVName` `" id "` and the header cell `"id"` are
equal after cleaning and lower-casing, but the field does not resolve: the
header map has no key for it and `ProcessHeader` rejects it as a missing
required field. -/
theorem padded_csvName_unresolved :
    GoStrings.ascii.ToLower (cleanString " id ") = GoStrings.ascii.ToLower (cleanString "id") ∧
    fillHeaderMap GoStrings.ascii (["id"].map cleanString) 0 GoMap.empty
      (GoStrings.ascii.ToLower " id ") = none ∧
    (ProcessHeader GoStrings.ascii
      ⟨{ CSVFilePath := "file.csv",
         Fields := [{ Name := "id", Required := true, CSVName := " id " }],
         FieldConfigPath := "fields.json", SelectedFields := [] },
       ⟨[.row ["id"], .row ["7"]]⟩⟩).1 =
      .error "required field ' id ' not found in CSV header" := by
  refine ⟨by decide, by rfl, by rfl⟩

/-- C8, amended. The header cell is cleaned and lower-cased, the `CSVName` is
only lower-cased: if the lower-cased `CSVName` of a field equals the
lower-cased cleaned text of a header cell, and that text is not empty, then the
field resolves to a column of the header; as a required field it is accepted
by `ProcessHeader`, and `setFields` finds its value in every record of the
length of the header. -/
theorem header_match (S : GoStrings) (field : FieldConfig) (header : List String)
    (cell : String) (hcell : cell ∈ header) (hne : cleanString cell ≠ "")
    (heq : S.ToLower field.CSVName = S.ToLower (cleanString cell)) :
    ∃ idx, fillHeaderMap S (header.map cleanString) 0 GoMap.empty (S.ToLower field.CSVName)
        = some idx ∧ idx < header.length ∧
      (∀ (path : String) (rest : List RowResult),
        (ProcessHeader S
          ⟨{ CSVFilePath := path, Fields := [{ field with Required := true }],
             FieldConfigPath := "", SelectedFields := [] },
           ⟨.row header :: rest⟩⟩).1 =
          .ok (fillHeaderMap S (header.map cleanString) 0 GoMap.empty)) ∧
      (∀ record : List String, record.length = header.length →
        ∃ value doc, record[idx]? = some value ∧
          setFields S (fillHeaderMap S (header.map cleanString) 0 GoMap.empty)
            (record.map cleanString) [field] NewDocument = some doc ∧
          doc.Fields field.Name =
            if cleanString value ≠ "" then some (cleanString value) else none) := by
  have hsome := (fill_isSome S (header.map cleanString) 0 GoMap.empty
    (S.ToLower field.CSVName)).2
    (Or.inl ⟨cleanString cell, List.mem_map.2 ⟨cell, hcell, rfl⟩, hne, heq.symm⟩)
  obtain ⟨idx, hidx⟩ := Option.isSome_iff_exists.1 hsome
  have hlt : idx < header.length := by
    simpa using fill_lt_length S (header.map cleanString) _ idx hidx
  refine ⟨idx, hidx, hlt, ?_, ?_⟩
  · intro path rest
    rw [processHeader_row_fst]
    simp [validateRequired, hidx]
  · intro record hlen
    have hget : record[idx]? = some record[idx] := List.getElem?_eq_getElem (by omega)
    by_cases hv : cleanString record[idx] = ""
    · refine ⟨record[idx], NewDocument, hget, ?_, ?_⟩
      · simp [setFields, hidx, hget, hv]
      · simp [hv, NewDocument, GoMap.empty]
    · refine ⟨record[idx], NewDocument.SetField field.Name (cleanString record[idx]), hget,
        ?_, ?_⟩
      · simp [setFields, hidx, hget, hv]
      · simp [hv, Document.SetField, GoMap.set]

/-- Witness of the amended C8: the `CSVName` `"ID"` and the header cell `" Id "`. -/
theorem header_match_witness :
    " Id " ∈ [" Id ", "name"] ∧ cleanString " Id " ≠ "" ∧
    GoStrings.ascii.ToLower "ID" = GoStrings.ascii.ToLower (cleanString " Id ") ∧
    ∃ idx, fillHeaderMap GoStrings.ascii ([" Id ", "name"].map cleanString) 0 GoMap.empty
        (GoStrings.ascii.ToLower "ID") = some idx ∧ idx < [" Id ", "name"].length ∧
      (∀ (path : String) (rest : List RowResult),
        (ProcessHeader GoStrings.ascii
          ⟨{ CSVFilePath := path,
             Fields := [{ ({ Name := "id", Required := false, CSVName := "ID" } : FieldConfig)
                          with Required := true }],
             FieldConfigPath := "", SelectedFields := [] },
           ⟨.row [" Id ", "name"] :: rest⟩⟩).1 =
          .ok (fillHeaderMap GoStrings.ascii ([" Id ", "name"].map cleanString) 0
            GoMap.empty)) ∧
      (∀ record : List String, record.length = [" Id ", "name"].length →
        ∃ value doc, record[idx]? = some value ∧
          setFields GoStrings.ascii
            (fillHeaderMap GoStrings.ascii ([" Id ", "name"].map cleanString) 0 GoMap.empty)
            (record.map cleanString) [{ Name := "id", Required := false, CSVName := "ID" }]
            NewDocument = some doc ∧
          doc.Fields "id" =
            if cleanString value ≠ "" then some (cleanString value) else none) :=
  ⟨by decide, by decide, by decide,
    header_match GoStrings.ascii { Name := "id", Required := false, CSVName := "ID" }
      [" Id ", "name"] " Id " (by decide) (by decide) (by decide)⟩

/-! ## Schema resolution with an external schema (C10) -/

/-- C10. With a field configuration file that loads, `LoadConfig` sets the
schema to the loaded one narrowed by the selection list, and `ProcessHeader`
keeps it when it is not empty but replaces it by the fields detected from the
header when it is empty. For the loaded schema `[id]`, the selection
`["nosuch"]` and the header `["id","name"]`, the narrowed schema is empty and
the schema used for the records is the detected `[id, name]`. -/
theorem loadConfig_selection :
    (∀ (S : GoStrings) (csv fieldConfigPath : String) (selected : List String)
        (loadFieldConfig : String → Except String (List FieldConfig))
        (fields : List FieldConfig) (header : List String) (rest : List RowResult),
      csv ≠ "" → fieldConfigPath ≠ "" → loadFieldConfig fieldConfigPath = .ok fields →
      ∃ cfg, LoadConfig S csv selected fieldConfigPath loadFieldConfig = .ok cfg ∧
        cfg.Fields = filterFields S fields selected ∧
        (ProcessHeader S ⟨cfg, ⟨.row header :: rest⟩⟩).2.config.Fields =
          if (filterFields S fields selected).length = 0
          then DetectFields (header.map cleanString)
          else filterFields S fields selected) ∧
    (∃ cfg,
      LoadConfig GoStrings.ascii "data/file.csv" ["nosuch"] "fields.json"
        (fun _ => .ok [{ Name := "id", Required := false, CSVName := "id" }]) = .ok cfg ∧
      filterFields GoStrings.ascii [{ Name := "id", Required := false, CSVName := "id" }]
        ["nosuch"] = [] ∧
      cfg.Fields = [] ∧
      (ProcessHeader GoStrings.ascii ⟨cfg, ⟨[.row ["id", "name"], .row ["1", "Alice"]]⟩⟩
        ).2.config.Fields =
        [{ Name := "id", Required := false, CSVName := "id" },
         { Name := "name", Required := false, CSVName := "name" }]) := by
  constructor
  · intro S csv fieldConfigPath selected loadFieldConfig fields header rest hcsv hpath hload
    by_cases hsel : selected.length > 0
    · refine ⟨{ CSVFilePath := csv, Fields := filterFields S fields selected,
                FieldConfigPath := fieldConfigPath, SelectedFields := selected }, ?_, rfl, ?_⟩
      · simp [LoadConfig, hcsv, hpath, hload, hsel]
      · rw [processHeader_row_snd]
    · refine ⟨{ CSVFilePath := csv, Fields := fields,
                FieldConfigPath := fieldConfigPath, SelectedFields := selected }, ?_, ?_, ?_⟩
      · simp [LoadConfig, hcsv, hpath, hload, hsel]
      · have h0 : selected.length = 0 := by omega
        simp [filterFields, h0]
      · have h0 : selected.length = 0 := by omega
        rw [processHeader_row_snd]
        simp [filterFields, h0]
  · refine ⟨{ CSVFilePath := "data/file.csv", Fields := [],
              FieldConfigPath := "fields.json", SelectedFields := ["nosuch"] }, ?_, ?_, rfl, ?_⟩
    · rfl
    · decide
    · decide

/-! ## Lemmas on the text normalizer -/

/-- The scanning loop with a field being read: the field ends at the next white
space rune, and the scan goes on after it. -/
theorem fieldsLoop_pending (s cur : List Char) (hcur : cur ≠ []) :
    FieldsLoop s cur =
      (cur.reverse ++ s.takeWhile (fun c => !IsSpace c)) ::
        Fields (s.dropWhile (fun c => !IsSpace c)) := by
  induction s generalizing cur with
  | nil =>
    have : cur.isEmpty = false := by cases cur <;> simp_all
    simp [FieldsLoop, Fields, this]
  | cons r rest ih =>
    have hc : cur.isEmpty = false := by cases cur <;> simp_all
    by_cases hr : IsSpace r = true
    · simp [FieldsLoop, Fields, hr, hc]
    · simp only [Bool.not_eq_true] at hr
      simp [FieldsLoop, hr, ih (r :: cur) (by simp)]

/-- `Fields` of the empty text. -/
theorem fields_nil : Fields [] = [] := rfl

/-- `Fields` skips a leading white space rune. -/
theorem fields_cons_space (c : Char) (rest : List Char) (hc : IsSpace c = true) :
    Fields (c :: rest) = Fields rest := by
  simp [Fields, FieldsLoop, hc]

/-- `Fields` of a text that starts with another rune: the first field runs to
the next white space rune. -/
theorem fields_cons_other (c : Char) (rest : List Char) (hc : IsSpace c = false) :
    Fields (c :: rest) =
      (c :: rest.takeWhile (fun c => !IsSpace c)) ::
        Fields (rest.dropWhile (fun c => !IsSpace c)) := by
  have h := fieldsLoop_pending rest [c] (by simp)
  simp only [Fields, FieldsLoop, hc]
  simpa [Fields] using h

/-- Induction on a text along the equations of `Fields`. -/
theorem fields_induction (P : List Char → Prop) (hnil : P [])
    (hspace : ∀ c rest, IsSpace c = true → P rest → P (c :: rest))
    (hother : ∀ c rest, IsSpace c = false →
      P (rest.dropWhile (fun c => !IsSpace c)) → P (c :: rest)) :
    ∀ s, P s := by
  suffices h : ∀ n, ∀ s : List Char, s.length ≤ n → P s from fun s => h s.length s le_rfl
  intro n
  induction n with
  | zero =>
    intro s hs
    have : s = [] := List.length_eq_zero.1 (by omega)
    subst this
    exact hnil
  | succ n ih =>
    intro s hs
    cases s with
    | nil => exact hnil
    | cons c rest =>
      simp only [List.length_cons] at hs
      by_cases hc : IsSpace c = true
      · exact hspace c rest hc (ih rest (by omega))
      · simp only [Bool.not_eq_true] at hc
        refine hother c rest hc (ih _ ?_)
        have := (List.dropWhile_sublist (fun c => !IsSpace c) (l := rest)).length_le
        omega

/-- The fields of a text are not empty and hold no white space rune. -/
theorem fields_words (s : List Char) :
    ∀ w ∈ Fields s, w ≠ [] ∧ ∀ c ∈ w, IsSpace c = false := by
  induction s using fields_induction with
  | hnil => simp [fields_nil]
  | hspace c rest hc ih => rw [fields_cons_space c rest hc]; exact ih
  | hother c rest hc ih =>
    rw [fields_cons_other c rest hc]
    intro w hw
    rcases List.mem_cons.1 hw with rfl | hin
    · refine ⟨by simp, ?_⟩
      intro d hd
      rcases List.mem_cons.1 hd with rfl | hd
      · exact hc
      · simpa using List.mem_takeWhile_imp hd
    · exact ih w hin

/-- The runes of the fields of a text, in order, are its runes that are not
white space. -/
theorem fields_flatten (s : List Char) :
    (Fields s).flatten = s.filter (fun c => !IsSpace c) := by
  induction s using fields_induction with
  | hnil => simp [fields_nil]
  | hspace c rest hc ih => rw [fields_cons_space c rest hc, ih]; simp [hc]
  | hother c rest hc ih =>
    rw [fields_cons_other c rest hc, List.flatten_cons, ih]
    have hsplit := List.takeWhile_append_dropWhile (fun c => !IsSpace c) rest
    have htw : (rest.takeWhile (fun c => !IsSpace c)).filter (fun c => !IsSpace c)
        = rest.takeWhile (fun c => !IsSpace c) :=
      List.filter_eq_self.2 (fun a ha => List.mem_takeWhile_imp (p := fun c => !IsSpace c) ha)
    have hfil : rest.filter (fun c => !IsSpace c) =
        rest.takeWhile (fun c => !IsSpace c) ++
          (rest.dropWhile (fun c => !IsSpace c)).filter (fun c => !IsSpace c) := by
      calc rest.filter (fun c => !IsSpace c)
          = (rest.takeWhile (fun c => !IsSpace c) ++
              rest.dropWhile (fun c => !IsSpace c)).filter (fun c => !IsSpace c) := by
            rw [hsplit]
        _ = _ := by rw [List.filter_append, htw]
    rw [List.filter_cons_of_pos (by simp [hc]), hfil]
    rfl

/-- A text with a rune that is not white space has a field. -/
theorem fields_ne_nil (s : List Char) (c : Char) (hc : c ∈ s) (hs : IsSpace c = false) :
    Fields s ≠ [] := by
  intro h
  have := fields_flatten s
  rw [h] at this
  have hmem : c ∈ s.filter (fun c => !IsSpace c) := by simp [hc, hs]
  rw [← this] at hmem
  simp at hmem

/-- `Join` of a first element and a non-empty rest. -/
theorem join_cons (a : List Char) (ws : List (List Char)) (sep : List Char) (h : ws ≠ []) :
    Join (a :: ws) sep = a ++ sep ++ Join ws sep := by
  cases ws with
  | nil => exact absurd rfl h
  | cons b rest => rfl

/-- `Join` starts with its first element. -/
theorem join_prefix (a : List Char) (ws : List (List Char)) (sep : List Char) :
    ∃ tail, Join (a :: ws) sep = a ++ tail := by
  cases ws with
  | nil => exact ⟨[], by simp [Join]⟩
  | cons b rest => exact ⟨sep ++ Join (b :: rest) sep, by simp [Join]⟩

/-- `Join` of non-empty elements is empty only for no element. -/
theorem join_eq_nil (ws : List (List Char)) (sep : List Char) (hw : ∀ w ∈ ws, w ≠ [])
    (h : Join ws sep = []) : ws = [] := by
  cases ws with
  | nil => rfl
  | cons a rest =>
    obtain ⟨tail, ht⟩ := join_prefix a rest sep
    rw [ht] at h
    have : a = [] := (List.append_eq_nil.1 h).1
    exact absurd this (hw a (by simp))

/-- A rune of `Join ws sep` is a rune of the separator or of an element. -/
theorem mem_join (ws : List (List Char)) (sep : List Char) (c : Char) (h : c ∈ Join ws sep) :
    c ∈ sep ∨ ∃ w ∈ ws, c ∈ w := by
  induction ws with
  | nil => simp [Join] at h
  | cons a rest ih =>
    cases rest with
    | nil => exact Or.inr ⟨a, by simp, by simpa [Join] using h⟩
    | cons b rest =>
      simp only [Join, List.mem_append] at h
      rcases h with (h | h) | h
      · exact Or.inr ⟨a, by simp, h⟩
      · exact Or.inl h
      · rcases ih h with h1 | ⟨w, hw, hcw⟩
        · exact Or.inl h1
        · exact Or.inr ⟨w, List.mem_cons_of_mem _ hw, hcw⟩

/-- A text without white space, and not empty, is its own single field. -/
theorem fields_word (a : List Char) (ha : a ≠ []) (hs : ∀ c ∈ a, IsSpace c = false) :
    Fields a = [a] := by
  cases a with
  | nil => exact absurd rfl ha
  | cons c rest =>
    have hrest : ∀ d ∈ rest, (fun c => !IsSpace c) d = true := by
      intro d hd; simp [hs d (List.mem_cons_of_mem _ hd)]
    rw [fields_cons_other c rest (hs c (by simp)),
      List.takeWhile_eq_self_iff.2 hrest, List.dropWhile_eq_nil_iff.2 hrest, fields_nil]

/-- A field followed by a space and a text: the field, then the fields of the text. -/
theorem fields_word_space (a t : List Char) (ha : a ≠ []) (hs : ∀ c ∈ a, IsSpace c = false) :
    Fields (a ++ ' ' :: t) = a :: Fields t := by
  cases a with
  | nil => exact absurd rfl ha
  | cons c rest =>
    have hrest : ∀ d ∈ rest, (fun c => !IsSpace c) d = true := by
      intro d hd; simp [hs d (List.mem_cons_of_mem _ hd)]
    have hsp : IsSpace ' ' = true := by decide
    rw [List.cons_append, fields_cons_other c _ (hs c (by simp)),
      List.takeWhile_append_of_pos hrest, List.dropWhile_append_of_pos hrest]
    simp [List.takeWhile, List.dropWhile, hsp, fields_cons_space]

/-- Splitting the joined fields gives the fields back. -/
theorem fields_join (ws : List (List Char))
    (hw : ∀ w ∈ ws, w ≠ [] ∧ ∀ c ∈ w, IsSpace c = false) :
    Fields (Join ws [' ']) = ws := by
  induction ws with
  | nil => rfl
  | cons a rest ih =>
    have ha := hw a (by simp)
    cases rest with
    | nil => simpa [Join] using fields_word a ha.1 ha.2
    | cons b rest =>
      have := ih (fun w hw1 => hw w (List.mem_cons_of_mem _ hw1))
      simp only [Join, List.append_assoc, List.singleton_append]
      rw [fields_word_space a _ ha.1 ha.2, this]

/-- The joined fields of a text that starts with a rune that is not white
space start with this rune. -/
theorem join_fields_head (c : Char) (rest : List Char) (hc : IsSpace c = false) :
    ∃ tail, Join (Fields (c :: rest)) [' '] = c :: tail := by
  rw [fields_cons_other c rest hc]
  obtain ⟨tail, ht⟩ := join_prefix (c :: rest.takeWhile (fun c => !IsSpace c))
    (Fields (rest.dropWhile (fun c => !IsSpace c))) [' ']
  exact ⟨_, by rw [ht]; rfl⟩

/-- The joined fields of a text that ends with a rune that is not white space
end with this rune. -/
theorem join_fields_last (s : List Char) :
    ∀ c, s.getLast? = some c → IsSpace c = false →
      (Join (Fields s) [' ']).getLast? = some c := by
  induction s using fields_induction with
  | hnil => intro c h; simp at h
  | hspace c0 rest hc0 ih =>
    intro c hlast hc
    rw [fields_cons_space c0 rest hc0]
    cases rest with
    | nil =>
      simp only [List.getLast?_singleton, Option.some.injEq] at hlast
      subst hlast
      simp [hc0] at hc
    | cons d rest => exact ih c (by simpa using hlast) hc
  | hother c0 rest hc0 ih =>
    intro c hlast hc
    rw [fields_cons_other c0 rest hc0]
    have hsplit := List.takeWhile_append_dropWhile (fun c => !IsSpace c) rest
    by_cases hdw : rest.dropWhile (fun c => !IsSpace c) = []
    · rw [hdw] at hsplit
      simp only [List.append_nil] at hsplit
      rw [hdw, hsplit, fields_nil]
      simpa [Join] using hlast
    · have hl : (rest.dropWhile (fun c => !IsSpace c)).getLast? = some c := by
        have h1 : (c0 :: rest).getLast? = rest.getLast? := by
          cases rest with
          | nil => simp at hdw
          | cons d rest => simp
        rw [h1, ← hsplit, List.getLast?_append_of_ne_nil _ hdw] at hlast
        exact hlast
      have hmem : c ∈ rest.dropWhile (fun c => !IsSpace c) := List.mem_of_getLast?_eq_some hl
      have hne := fields_ne_nil _ c hmem hc
      have hih := ih c hl hc
      rw [join_cons _ _ _ hne]
      have hjne : Join (Fields (rest.dropWhile (fun c => !IsSpace c))) [' '] ≠ [] := by
        intro h
        rw [h] at hih
        simp at hih
      rw [List.getLast?_append_of_ne_nil _ hjne]
      exact hih

/-- Collapsing after a stretch without white space keeps the stretch. -/
theorem collapseRuns_append (a t : List Char) (ha : ∀ c ∈ a, IsSpace c = false) :
    collapseRuns false (a ++ t) = a ++ collapseRuns false t := by
  induction a with
  | nil => rfl
  | cons c rest ih =>
    have hc := ha c (by simp)
    simp only [List.cons_append, collapseRuns, hc]
    simp [ih (fun d hd => ha d (List.mem_cons_of_mem _ hd))]

/-- The joined fields of a text that does not end with white space are the text
with its leading white space removed and every other run of white space
replaced by one space. -/
theorem join_fields_collapse (s : List Char) :
    (∀ c, s.getLast? = some c → IsSpace c = false) →
      Join (Fields s) [' '] = collapseRuns true s := by
  induction s using fields_induction with
  | hnil => intro _; rfl
  | hspace c0 rest hc0 ih =>
    intro hlast
    rw [fields_cons_space c0 rest hc0]
    simp only [collapseRuns, hc0, if_true]
    apply ih
    intro c hc
    cases rest with
    | nil => simp at hc
    | cons d rest => exact hlast c (by simpa using hc)
  | hother c0 rest hc0 ih =>
    intro hlast
    rw [fields_cons_other c0 rest hc0]
    have hsplit := List.takeWhile_append_dropWhile (fun c => !IsSpace c) rest
    have htw : ∀ d ∈ rest.takeWhile (fun c => !IsSpace c), IsSpace d = false := by
      intro d hd
      simpa using List.mem_takeWhile_imp hd
    have hcol : collapseRuns true (c0 :: rest) =
        c0 :: (rest.takeWhile (fun c => !IsSpace c) ++
          collapseRuns false (rest.dropWhile (fun c => !IsSpace c))) := by
      simp only [collapseRuns, hc0]
      rw [← collapseRuns_append _ _ htw, hsplit]
      rfl
    rw [hcol]
    cases hdw : rest.dropWhile (fun c => !IsSpace c) with
    | nil => simp [fields_nil, Join, collapseRuns]
    | cons d dw =>
      have hd : IsSpace d = true := by
        have := List.head?_dropWhile_not (fun c => !IsSpace c) rest
        rw [hdw] at this
        simpa using this
      have hlast2 : ∀ c, (d :: dw).getLast? = some c → IsSpace c = false := by
        intro c hc
        apply hlast c
        have h1 : (c0 :: rest).getLast? = rest.getLast? := by
          cases rest with
          | nil => simp at hdw
          | cons e rest => simp
        rw [h1, ← hsplit, hdw, List.getLast?_append_of_ne_nil _ (by simp)]
        exact hc
      have hih := ih
      rw [hdw] at hih
      have hih2 := hih hlast2
      obtain ⟨cl, hcl⟩ : ∃ cl, (d :: dw).getLast? = some cl := by
        cases h : (d :: dw).getLast? with
        | none => simp at h
        | some cl => exact ⟨cl, rfl⟩
      have hne := fields_ne_nil (d :: dw) cl (List.mem_of_getLast?_eq_some hcl) (hlast2 cl hcl)
      rw [join_cons _ _ _ hne, hih2]
      simp [collapseRuns, hd]

/-- In the joined fields no two white space runes are adjacent. -/
theorem join_chain (ws : List (List Char))
    (hw : ∀ w ∈ ws, w ≠ [] ∧ ∀ c ∈ w, IsSpace c = false) :
    List.Chain' (fun a b => ¬ (IsSpace a = true ∧ IsSpace b = true)) (Join ws [' ']) := by
  have hword : ∀ w : List Char, (∀ c ∈ w, IsSpace c = false) →
      List.Chain' (fun a b => ¬ (IsSpace a = true ∧ IsSpace b = true)) w := by
    intro w h
    apply List.Pairwise.chain'
    apply List.pairwise_of_forall_mem_list
    intro a ha b _
    simp [h a ha]
  induction ws with
  | nil => simp [Join]
  | cons a rest ih =>
    have ha := hw a (by simp)
    cases rest with
    | nil => simpa [Join] using hword a ha.2
    | cons b rest =>
      have hb := hw b (by simp)
      have hrest := ih (fun w hw1 => hw w (List.mem_cons_of_mem _ hw1))
      obtain ⟨tail, ht⟩ := join_prefix b rest [' ']
      have hhead : ∀ y ∈ (Join (b :: rest) [' ']).head?, IsSpace y = false := by
        intro y hy
        rw [ht] at hy
        cases b with
        | nil => exact absurd rfl hb.1
        | cons b0 b1 =>
          simp only [List.cons_append, List.head?_cons, Option.mem_def, Option.some.injEq] at hy
          subst hy
          exact hb.2 _ (by simp)
      simp only [Join, List.append_assoc, List.singleton_append]
      rw [List.chain'_append]
      refine ⟨hword a ha.2, ?_, ?_⟩
      · rw [List.chain'_cons']
        refine ⟨?_, hrest⟩
        intro y hy
        simp [hhead y hy]
      · intro x hx y _
        have : x ∈ a := List.mem_of_getLast?_eq_some hx
        simp [ha.2 x this]

/-- Trimming gives the empty text exactly when every rune is trimmed. -/
theorem trimFunc_eq_nil (s : List Char) (p : Char → Bool) :
    TrimFunc s p = [] ↔ ∀ c ∈ s, p c = true := by
  have e : TrimFunc s p = List.rdropWhile p (s.dropWhile p) := rfl
  rw [e, List.rdropWhile_eq_nil_iff]
  constructor
  · intro h
    have hnil : s.dropWhile p = [] := by
      by_contra hne
      have h1 := List.head_dropWhile_not p s hne
      have h2 := h _ (List.head_mem hne)
      simp [h1] at h2
    exact List.dropWhile_eq_nil_iff.1 hnil
  · intro h x hx
    exact h x ((List.dropWhile_sublist p).subset hx)

/-- The trimmed text does not start with a trimmed rune. -/
theorem trimFunc_head (s : List Char) (p : Char → Bool) (c : Char)
    (h : (TrimFunc s p).head? = some c) : p c = false := by
  have e : TrimFunc s p = List.rdropWhile p (s.dropWhile p) := rfl
  rw [e] at h
  have hne : List.rdropWhile p (s.dropWhile p) ≠ [] := by
    intro h0; rw [h0] at h; simp at h
  have hpre : List.rdropWhile p (s.dropWhile p) <+: s.dropWhile p :=
    List.rdropWhile_prefix p _
  have hd : s.dropWhile p ≠ [] := by
    intro h0
    apply hne
    rw [h0]
    rfl
  have hh := hpre.head hne
  have h1 := List.head_dropWhile_not p s hd
  rw [List.head?_eq_head hne, Option.some.injEq] at h
  rw [← h, hh]
  exact h1

/-- The trimmed text does not end with a trimmed rune. -/
theorem trimFunc_last (s : List Char) (p : Char → Bool) (c : Char)
    (h : (TrimFunc s p).getLast? = some c) : p c = false := by
  have e : TrimFunc s p = List.rdropWhile p (s.dropWhile p) := rfl
  rw [e] at h
  have hne : List.rdropWhile p (s.dropWhile p) ≠ [] := by
    intro h0; rw [h0] at h; simp at h
  have h1 := List.rdropWhile_last_not p (s.dropWhile p) hne
  rw [List.getLast?_eq_getLast _ hne, Option.some.injEq] at h
  rw [← h]
  simpa using h1

/-- Trimming keeps a text that neither starts nor ends with a trimmed rune. -/
theorem trimFunc_fixed (s : List Char) (p : Char → Bool)
    (hhead : ∀ c, s.head? = some c → p c = false)
    (hlast : ∀ c, s.getLast? = some c → p c = false) : TrimFunc s p = s := by
  have e : TrimFunc s p = List.rdropWhile p (s.dropWhile p) := rfl
  have h1 : s.dropWhile p = s := by
    cases s with
    | nil => rfl
    | cons a rest => simp [List.dropWhile, hhead a rfl]
  rw [e, h1, List.rdropWhile_eq_self_iff]
  intro hl
  have := hlast _ (List.getLast?_eq_getLast s hl)
  simp [this]

/-- The rune sequence of a cleaned string. -/
theorem cleanString_data (s : String) :
    (cleanString s).data =
      Join (Fields (TrimFunc s.data (fun r => IsSpace r || IsControl r))) [' '] := rfl

/-- A cleaned string does not start with a white space or control rune. -/
theorem cleanString_head (s : String) (c : Char) (h : (cleanString s).data.head? = some c) :
    (IsSpace c || IsControl c) = false := by
  rw [cleanString_data] at h
  cases ht : TrimFunc s.data (fun r => IsSpace r || IsControl r) with
  | nil => rw [ht] at h; simp [fields_nil, Join] at h
  | cons c0 rest =>
    have h0 := trimFunc_head s.data (fun r => IsSpace r || IsControl r) c0 (by rw [ht]; rfl)
    have hs : IsSpace c0 = false := by
      simp only [Bool.or_eq_false_iff] at h0
      exact h0.1
    obtain ⟨tail, htail⟩ := join_fields_head c0 rest hs
    rw [ht, htail] at h
    simp only [List.head?_cons, Option.some.injEq] at h
    rw [← h]
    exact h0

/-- A cleaned string does not end with a white space or control rune. -/
theorem cleanString_last (s : String) (c : Char) (h : (cleanString s).data.getLast? = some c) :
    (IsSpace c || IsControl c) = false := by
  rw [cleanString_data] at h
  cases hl : (TrimFunc s.data (fun r => IsSpace r || IsControl r)).getLast? with
  | none =>
    rw [List.getLast?_eq_none_iff] at hl
    rw [hl] at h
    simp [fields_nil, Join] at h
  | some cl =>
    have h0 := trimFunc_last s.data (fun r => IsSpace r || IsControl r) cl hl
    have hs : IsSpace cl = false := by
      simp only [Bool.or_eq_false_iff] at h0
      exact h0.1
    have := join_fields_last _ cl hl hs
    rw [this, Option.some.injEq] at h
    rw [← h]
    exact h0

/-- Cleaning a cleaned string changes nothing. -/
theorem cleanString_fixed (s : String) : cleanString (cleanString s) = cleanString s := by
  have hd : (cleanString (cleanString s)).data = (cleanString s).data := by
    rw [cleanString_data (cleanString s),
      trimFunc_fixed _ _ (cleanString_head s) (cleanString_last s), cleanString_data s,
      fields_join _ (fields_words _)]
  exact String.ext hd

/-- A string cleans to the empty string exactly when all its runes are white
space or control runes. -/
theorem cleanString_eq_empty (s : String) :
    cleanString s = "" ↔ ∀ c ∈ s.data, (IsSpace c || IsControl c) = true := by
  rw [← trimFunc_eq_nil]
  constructor
  · intro h
    have hd : (cleanString s).data = [] := by rw [h]
    rw [cleanString_data] at hd
    have hf := join_eq_nil _ _ (fun w hw => (fields_words _ w hw).1) hd
    by_contra hne
    cases ht : TrimFunc s.data (fun r => IsSpace r || IsControl r) with
    | nil => exact hne ht
    | cons c0 rest =>
      have h0 := trimFunc_head s.data (fun r => IsSpace r || IsControl r) c0 (by rw [ht]; rfl)
      have hs : IsSpace c0 = false := by
        simp only [Bool.or_eq_false_iff] at h0
        exact h0.1
      rw [ht] at hf
      exact fields_ne_nil (c0 :: rest) c0 (by simp) hs hf
  · intro h
    apply String.ext
    rw [cleanString_data, h]
    rfl

/-- The runes of the joined fields that are not white space are the runes of
the fields, in order. -/
theorem join_filter (ws : List (List Char)) (hw : ∀ w ∈ ws, ∀ c ∈ w, IsSpace c = false) :
    (Join ws [' ']).filter (fun c => !IsSpace c) = ws.flatten := by
  have hword : ∀ w : List Char, (∀ c ∈ w, IsSpace c = false) →
      w.filter (fun c => !IsSpace c) = w := by
    intro w h
    exact List.filter_eq_self.2 (fun c hc => by simp [h c hc])
  have hsp : IsSpace ' ' = true := by decide
  induction ws with
  | nil => rfl
  | cons a rest ih =>
    have ha := hword a (hw a (by simp))
    cases rest with
    | nil => simpa [Join] using ha
    | cons b rest =>
      have hrest := ih (fun w hw1 => hw w (List.mem_cons_of_mem _ hw1))
      simp only [Join, List.filter_append, ha, hrest, List.flatten_cons]
      simp [hsp]

/-- On a text that does not start with white space, collapsing is the same
whether or not the rune before was white space. -/
theorem collapseRuns_start (t : List Char) (h : ∀ c, t.head? = some c → IsSpace c = false) :
    collapseRuns true t = collapseRuns false t := by
  cases t with
  | nil => rfl
  | cons c rest => simp [collapseRuns, h c rfl]

/-! ## The text normalizer (C14, C15, C19) -/

/-- C14. The text normalizer is idempotent: cleaning a cleaned string gives the
same string, for every string. -/
theorem cleanString_idempotent (s : String) : cleanString (cleanString s) = cleanString s := by
  apply String.ext
  have hwords := fields_words (TrimFunc s.data (fun r => IsSpace r || IsControl r))
  have htrim : TrimFunc (cleanString s).data (fun r => IsSpace r || IsControl r)
      = (cleanString s).data :=
    trimFunc_fixed _ _ (cleanString_head s) (cleanString_last s)
  rw [cleanString_data (cleanString s), htrim, cleanString_data s, fields_join _ hwords]

/-- C15. For every string `s`, `cleanString s` neither starts nor ends with a
white space or control rune, has no two adjacent spaces, has no white space
rune other than U+0020, is the trimmed input with every run of white space
replaced by one space, and keeps the runes of the trimmed input that are not
white space, unchanged and in order. -/
theorem cleanString_shape (s : String) :
    (∀ c, (cleanString s).data.head? = some c → IsSpace c = false ∧ IsControl c = false) ∧
    (∀ c, (cleanString s).data.getLast? = some c → IsSpace c = false ∧ IsControl c = false) ∧
    ¬ [' ', ' '] <:+: (cleanString s).data ∧
    (∀ c ∈ (cleanString s).data, IsSpace c = true → c = ' ') ∧
    (cleanString s).data =
      collapseRuns false (TrimFunc s.data (fun r => IsSpace r || IsControl r)) ∧
    (cleanString s).data.filter (fun c => !IsSpace c) =
      (TrimFunc s.data (fun r => IsSpace r || IsControl r)).filter (fun c => !IsSpace c) := by
  have hwords := fields_words (TrimFunc s.data (fun r => IsSpace r || IsControl r))
  refine ⟨?_, ?_, ?_, ?_, ?_, ?_⟩
  · intro c hc
    simpa using cleanString_head s c hc
  · intro c hc
    simpa using cleanString_last s c hc
  · intro hinf
    rw [cleanString_data] at hinf
    have hchain := List.Chain'.infix (join_chain _ hwords) hinf
    rw [List.chain'_cons] at hchain
    exact hchain.1 ⟨by decide, by decide⟩
  · intro c hc hsp
    rw [cleanString_data] at hc
    rcases mem_join _ _ c hc with h | ⟨w, hw, hcw⟩
    · simpa using h
    · have := (hwords w hw).2 c hcw
      rw [this] at hsp
      exact absurd hsp (by simp)
  · rw [cleanString_data, join_fields_collapse, collapseRuns_start]
    · intro c hc
      have := trimFunc_head _ _ c hc
      simp only [Bool.or_eq_false_iff] at this
      exact this.1
    · intro c hc
      have := trimFunc_last _ _ c hc
      simp only [Bool.or_eq_false_iff] at this
      exact this.1
  · rw [cleanString_data, join_filter _ (fun w hw => (hwords w hw).2), fields_flatten]

/-- C19. For every string `s`, `cleanString s` is the empty string if and only
if every rune of `s` is a white space or control rune; this is the condition
under which a header cell gives no field in `DetectFields` and no key in the
header map, and a data cell leaves its field unset. -/
theorem cleanString_empty_iff (s : String) :
    (cleanString s = "" ↔ ∀ c ∈ s.data, IsSpace c = true ∨ IsControl c = true) ∧
    (DetectFields [s] = [] ↔ ∀ c ∈ s.data, IsSpace c = true ∨ IsControl c = true) ∧
    (∀ S : GoStrings, (∀ k, fillHeaderMap S ([s].map cleanString) 0 GoMap.empty k = none) ↔
      ∀ c ∈ s.data, IsSpace c = true ∨ IsControl c = true) ∧
    (∀ (S : GoStrings) (headerMap : GoMap Nat) (field : FieldConfig) (sourceFile : String),
      headerMap (S.ToLower field.CSVName) = some 0 → field.Name ≠ "source_csv" →
      ∃ doc, buildDocument S [field] sourceFile headerMap [s] = some doc ∧
        (doc.Fields field.Name = none ↔ ∀ c ∈ s.data, IsSpace c = true ∨ IsControl c = true)) := by
  have hmain : cleanString s = "" ↔ ∀ c ∈ s.data, IsSpace c = true ∨ IsControl c = true := by
    rw [cleanString_eq_empty]
    simp only [Bool.or_eq_true]
  refine ⟨hmain, ?_, ?_, ?_⟩
  · rw [← hmain]
    by_cases h : cleanString s = "" <;> simp [DetectFields, h]
  · intro S
    rw [← hmain]
    by_cases h : cleanString s = ""
    · simp [fillHeaderMap, h, GoMap.empty]
    · simp only [h, iff_false, not_forall]
      refine ⟨S.ToLower (cleanString s), ?_⟩
      simp [fillHeaderMap, h, GoMap.set]
  · intro S headerMap field sourceFile hk hname
    rw [← hmain]
    by_cases h : cleanString s = ""
    · refine ⟨NewDocument.SetField "source_csv" sourceFile, ?_, ?_⟩
      · simp [buildDocument, setFields, hk, h]
      · simp [h, Document.SetField, GoMap.set, hname, NewDocument, GoMap.empty]
    · refine ⟨(NewDocument.SetField field.Name (cleanString s)).SetField "source_csv" sourceFile,
        ?_, ?_⟩
      · simp [buildDocument, setFields, hk, h]
      · simp [h, Document.SetField, GoMap.set, hname]

/-! ## Field selection (C11) -/

/-- C11. `filterFields fields selected` is `fields` when `selected` is empty, and
otherwise the fields whose `Name` folds equal to at least one entry of
`selected`, each kept once and in the original order: the result is a
sub-sequence of `fields`, a field is in it exactly when it is in `fields` and
matches, it occurs as often as in `fields`, and filtering twice with the same
list is filtering once. -/
theorem filterFields_spec (S : GoStrings) (fields : List FieldConfig) (selected : List String) :
    (selected = [] → filterFields S fields selected = fields) ∧
    (selected ≠ [] → filterFields S fields selected =
      fields.filter (fun f => decide (∃ sel ∈ selected, S.EqualFold f.Name sel = true))) ∧
    List.Sublist (filterFields S fields selected) fields ∧
    (∀ f, f ∈ filterFields S fields selected ↔
      f ∈ fields ∧ (selected = [] ∨ ∃ sel ∈ selected, S.EqualFold f.Name sel = true)) ∧
    (∀ f, (selected = [] ∨ ∃ sel ∈ selected, S.EqualFold f.Name sel = true) →
      (filterFields S fields selected).count f = fields.count f) ∧
    filterFields S (filterFields S fields selected) selected = filterFields S fields selected ∧
    filterFields GoStrings.ascii
      [{ Name := "Name", Required := false, CSVName := "name" },
       { Name := "Email", Required := true, CSVName := "mail" },
       { Name := "Phone", Required := false, CSVName := "phone" }]
      ["email", "NAME", "Email"] =
      [{ Name := "Name", Required := false, CSVName := "name" },
       { Name := "Email", Required := true, CSVName := "mail" }] := by
  have hex : filterFields GoStrings.ascii
      [{ Name := "Name", Required := false, CSVName := "name" },
       { Name := "Email", Required := true, CSVName := "mail" },
       { Name := "Phone", Required := false, CSVName := "phone" }]
      ["email", "NAME", "Email"] =
      [{ Name := "Name", Required := false, CSVName := "name" },
       { Name := "Email", Required := true, CSVName := "mail" }] := by decide
  by_cases hsel : selected = []
  · subst hsel
    refine ⟨fun _ => ?_, fun h => absurd rfl h, ?_, ?_, ?_, ?_, hex⟩ <;>
      simp [filterFields]
  · have hlen : ¬ selected.length = 0 := fun h => hsel (List.length_eq_zero.1 h)
    have hdef : filterFields S fields selected =
        fields.filter (fun f => decide (∃ sel ∈ selected, S.EqualFold f.Name sel = true)) := by
      simp only [filterFields, hlen, if_false]
      apply List.filter_congr
      intro f _
      rw [Bool.eq_iff_iff]
      simp [List.any_eq_true]
    have hdef2 : ∀ l, filterFields S l selected =
        l.filter (fun f => decide (∃ sel ∈ selected, S.EqualFold f.Name sel = true)) := by
      intro l
      simp only [filterFields, hlen, if_false]
      apply List.filter_congr
      intro f _
      rw [Bool.eq_iff_iff]
      simp [List.any_eq_true]
    refine ⟨fun h => absurd h hsel, fun _ => hdef, ?_, ?_, ?_, ?_, hex⟩
    · rw [hdef]
      exact List.filter_sublist _
    · intro f
      rw [hdef]
      simp [List.mem_filter, hsel]
    · intro f hf
      rw [hdef, List.count_filter]
      rcases hf with h | h
      · exact absurd h hsel
      · simpa using h
    · rw [hdef2, hdef2, List.filter_filter]
      simp

/-! ## Delimiter detection (C12, C13) -/

/-- The result of the delimiter loop: the delimiter it started with, when no
candidate has more occurrences than `maxCount`, and otherwise the first
candidate with the largest number of occurrences. -/
theorem delimiterLoop_spec (firstLine : String) (ds : List Char) (maxCount : Nat) (best : Char) :
    (delimiterLoop firstLine ds maxCount best = best ∧
      ∀ d ∈ ds, Count firstLine d ≤ maxCount) ∨
    ∃ pre post, ds = pre ++ delimiterLoop firstLine ds maxCount best :: post ∧
      maxCount < Count firstLine (delimiterLoop firstLine ds maxCount best) ∧
      (∀ d ∈ pre, Count firstLine d < Count firstLine (delimiterLoop firstLine ds maxCount best)) ∧
      ∀ d ∈ post, Count firstLine d ≤ Count firstLine (delimiterLoop firstLine ds maxCount best) := by
  induction ds generalizing maxCount best with
  | nil => left; simp [delimiterLoop]
  | cons d rest ih =>
    by_cases hd : Count firstLine d > maxCount
    · have e : delimiterLoop firstLine (d :: rest) maxCount best
          = delimiterLoop firstLine rest (Count firstLine d) d := by
        simp [delimiterLoop, hd]
      rw [e]
      right
      rcases ih (Count firstLine d) d with ⟨h1, h2⟩ | ⟨pre, post, h1, h2, h3, h4⟩
      · refine ⟨[], rest, by rw [h1]; rfl, by rw [h1]; exact hd, by simp, ?_⟩
        rw [h1]
        exact h2
      · refine ⟨d :: pre, post, by rw [List.cons_append, ← h1], by omega, ?_, h4⟩
        intro x hx
        rcases List.mem_cons.1 hx with rfl | hx
        · exact h2
        · exact h3 x hx
    · have e : delimiterLoop firstLine (d :: rest) maxCount best
          = delimiterLoop firstLine rest maxCount best := by
        simp [delimiterLoop, hd]
      rw [e]
      rcases ih maxCount best with ⟨h1, h2⟩ | ⟨pre, post, h1, h2, h3, h4⟩
      · left
        refine ⟨h1, ?_⟩
        intro x hx
        rcases List.mem_cons.1 hx with rfl | hx
        · omega
        · exact h2 x hx
      · right
        refine ⟨d :: pre, post, by rw [List.cons_append, ← h1], h2, ?_, h4⟩
        intro x hx
        rcases List.mem_cons.1 hx with rfl | hx
        · omega
        · exact h3 x hx

/-- C12. For every first line read by the scanner, `DetectDelimiter` returns
without error one of comma, semicolon, tab, pipe, whose number of occurrences
in the line is at least that of every candidate, and which is the first of
the candidates, in the order comma, semicolon, tab, pipe, with that number.
With different numbers of commas and semicolons and no more tabs or pipes
than the larger of the two, the one of comma and semicolon with more
occurrences is returned; with four equal numbers, the comma. -/
theorem detectDelimiter_choice (content firstLine : String)
    (hline : scanFirstLine content = some firstLine) :
    ∃ r, DetectDelimiter (.ok content) = (r, none) ∧
      r ∈ [',', ';', '\t', '|'] ∧
      (∀ d ∈ [',', ';', '\t', '|'], Count firstLine d ≤ Count firstLine r) ∧
      (∃ pre post, [',', ';', '\t', '|'] = pre ++ r :: post ∧
        ∀ d ∈ pre, Count firstLine d < Count firstLine r) ∧
      (Count firstLine ',' ≠ Count firstLine ';' →
        Count firstLine '\t' ≤ max (Count firstLine ',') (Count firstLine ';') →
        Count firstLine '|' ≤ max (Count firstLine ',') (Count firstLine ';') →
        r = if Count firstLine ';' < Count firstLine ',' then ',' else ';') ∧
      (Count firstLine ',' = Count firstLine ';' → Count firstLine ';' = Count firstLine '\t' →
        Count firstLine '\t' = Count firstLine '|' → r = ',') := by
  refine ⟨delimiterLoop firstLine [',', ';', '\t', '|'] 0 ',', by simp [DetectDelimiter, hline],
    ?_, ?_, ?_, ?_, ?_⟩
  · rcases delimiterLoop_spec firstLine [',', ';', '\t', '|'] 0 ',' with
      ⟨h1, _⟩ | ⟨pre, post, h1, _⟩
    · rw [h1]; simp
    · have : delimiterLoop firstLine [',', ';', '\t', '|'] 0 ',' ∈ pre ++
          delimiterLoop firstLine [',', ';', '\t', '|'] 0 ',' :: post := by simp
      rw [← h1] at this
      exact this
  · rcases delimiterLoop_spec firstLine [',', ';', '\t', '|'] 0 ',' with
      ⟨h1, h2⟩ | ⟨pre, post, h1, _, h3, h4⟩
    · intro d hd
      have := h2 d hd
      omega
    · intro d hd
      rw [h1] at hd
      rcases List.mem_append.1 hd with h | h
      · exact Nat.le_of_lt (h3 d h)
      · rcases List.mem_cons.1 h with h | h
        · rw [h]
        · exact h4 d h
  · rcases delimiterLoop_spec firstLine [',', ';', '\t', '|'] 0 ',' with
      ⟨h1, _⟩ | ⟨pre, post, h1, _, h3, _⟩
    · exact ⟨[], [';', '\t', '|'], by rw [h1]; rfl, by simp⟩
    · exact ⟨pre, post, h1, h3⟩
  · intro hne ht hp
    simp only [delimiterLoop]
    split_ifs <;> first | rfl | omega
  · intro h1 h2 h3
    simp only [delimiterLoop]
    split_ifs <;> first | rfl | omega

/-- Witness of C12: a first line with two semicolons and one comma. -/
theorem detectDelimiter_choice_witness :
    scanFirstLine "a;b;c,d\n1;2;3,4\n" = some "a;b;c,d" ∧
    ∃ r, DetectDelimiter (.ok "a;b;c,d\n1;2;3,4\n") = (r, none) ∧
      r ∈ [',', ';', '\t', '|'] ∧
      (∀ d ∈ [',', ';', '\t', '|'], Count "a;b;c,d" d ≤ Count "a;b;c,d" r) ∧
      (∃ pre post, [',', ';', '\t', '|'] = pre ++ r :: post ∧
        ∀ d ∈ pre, Count "a;b;c,d" d < Count "a;b;c,d" r) ∧
      (Count "a;b;c,d" ',' ≠ Count "a;b;c,d" ';' →
        Count "a;b;c,d" '\t' ≤ max (Count "a;b;c,d" ',') (Count "a;b;c,d" ';') →
        Count "a;b;c,d" '|' ≤ max (Count "a;b;c,d" ',') (Count "a;b;c,d" ';') →
        r = if Count "a;b;c,d" ';' < Count "a;b;c,d" ',' then ',' else ';') ∧
      (Count "a;b;c,d" ',' = Count "a;b;c,d" ';' → Count "a;b;c,d" ';' = Count "a;b;c,d" '\t' →
        Count "a;b;c,d" '\t' = Count "a;b;c,d" '|' → r = ',') :=
  ⟨by decide, detectDelimiter_choice "a;b;c,d\n1;2;3,4\n" "a;b;c,d" (by decide)⟩

/-- The scanner reads no first line from a text of `n` letters `a` without a
line end, when `n` reaches the token size limit. -/
theorem scanFirstLine_long (n : Nat) (hn : MaxScanTokenSize ≤ n) :
    scanFirstLine (String.mk (List.replicate n 'a')) = none := by
  have htake : (List.replicate n 'a').takeWhile (fun c => c != '\n') = List.replicate n 'a' := by
    rw [List.takeWhile_eq_self_iff]
    intro c hc
    rw [List.eq_of_mem_replicate hc]
    decide
  have hsum : ∀ m : Nat, (List.replicate m 1).sum = m := by
    intro m
    induction m with
    | zero => rfl
    | succ m ihm =>
      have hm : List.replicate (m + 1) 1 = 1 :: List.replicate m 1 := rfl
      rw [hm, List.sum_cons, ihm]
      omega
  have hlen : byteLen (List.replicate n 'a') = n := by
    have h1 : Char.utf8Size 'a' = 1 := by decide
    simp only [byteLen, List.map_replicate, h1]
    exact hsum n
  unfold scanFirstLine
  simp only [htake, hlen]
  split <;> rfl

/-- When the scanner reads no first line, `DetectDelimiter` returns the comma
and the error `empty file`. -/
theorem detectDelimiter_of_none (content : String) (h : scanFirstLine content = none) :
    DetectDelimiter (.ok content) = (',', some "empty file") := by
  simp only [DetectDelimiter, h]

/-- A text of `n` letters, with `n` positive, is not empty. -/
theorem replicate_data_ne_nil (n : Nat) (hn : 0 < n) :
    (String.mk (List.replicate n 'a')).data ≠ [] := by
  intro h
  have hlen := congrArg List.length h
  simp only [List.length_replicate, List.length_nil] at hlen
  omega

/-- C13. `DetectDelimiter` on an opened file returns the error `empty file`
exactly when the scanner reads no first line, which happens for the empty
file and also for a file without a line end within the first
`MaxScanTokenSize` bytes. The empty file fails; the file `"\n"`, whose first
line is the empty string, gives the comma; the file of 65536 letters `a` is
not empty and fails with `empty file`. -/
theorem detectDelimiter_empty_file :
    (∀ content : String,
      (DetectDelimiter (.ok content)).2 = some "empty file" ↔ scanFirstLine content = none) ∧
    (∀ content : String,
      scanFirstLine content = none ↔
        content.data = [] ∨
          MaxScanTokenSize ≤ byteLen (content.data.takeWhile (fun c => c != '\n'))) ∧
    (∀ content : String, content.data ≠ [] →
      byteLen (content.data.takeWhile (fun c => c != '\n')) < MaxScanTokenSize →
      ∃ r, DetectDelimiter (.ok content) = (r, none)) ∧
    DetectDelimiter (.ok "") = (',', some "empty file") ∧
    DetectDelimiter (.ok "\n") = (',', none) ∧
    (String.mk (List.replicate 65536 'a')).data ≠ [] ∧
    DetectDelimiter (.ok (String.mk (List.replicate 65536 'a'))) = (',', some "empty file") := by
  refine ⟨?_, ?_, ?_, by decide, by decide, ?_, ?_⟩
  · intro content
    unfold DetectDelimiter
    cases h : scanFirstLine content with
    | none => simp [h]
    | some firstLine => simp [h]
  · intro content
    unfold scanFirstLine
    by_cases h1 : content.data = []
    · simp [h1]
    · have h2 : content.data.isEmpty = false := by
        cases hc : content.data with
        | nil => exact absurd hc h1
        | cons a rest => rfl
      by_cases h3 : MaxScanTokenSize ≤ byteLen (content.data.takeWhile (fun c => c != '\n'))
      · simp [h1, h2, h3]
      · simp [h1, h2, h3]
  · intro content h1 h3
    have h2 : content.data.isEmpty = false := by
      cases hc : content.data with
      | nil => exact absurd hc h1
      | cons a rest => rfl
    have hs : scanFirstLine content =
        some (String.mk (dropCR (content.data.takeWhile (fun c => c != '\n')))) := by
      unfold scanFirstLine
      simp [h2, Nat.not_le.2 h3]
    refine ⟨delimiterLoop (String.mk (dropCR (content.data.takeWhile (fun c => c != '\n'))))
      [',', ';', '\t', '|'] 0 ',', ?_⟩
    simp [DetectDelimiter, hs]
  · exact replicate_data_ne_nil 65536 (by norm_num)
  · exact detectDelimiter_of_none _ (scanFirstLine_long 65536 (by norm_num [MaxScanTokenSize]))

/-- Cleaning twice is cleaning once, for the fields detected from a header. -/
theorem detectFields_clean (header : List String) :
    DetectFields (header.map cleanString) = DetectFields header := by
  induction header with
  | nil => rfl
  | cons h rest ih =>
    have hfix := cleanString_fixed h
    by_cases hn : cleanString h = ""
    · have e : cleanString "" = "" := by decide
      simp only [List.map_cons, DetectFields, hn, e, if_true, ih]
    · simp only [List.map_cons, DetectFields, hfix, hn, if_false, ih]

/-! ## Duplicate header names (C16) -/

/-- C16, counterexample. For the header `["Name", " Email ", "", "Email"]` with
an inferred schema and the row `["Ann", "a@x", "", "b@y"]`, the document has
the value of column 3 under `Email` and holds the value of column 1 under no
name. -/
theorem duplicate_names_not_retained :
    ∃ doc,
      runPipeline GoStrings.ascii
        ⟨{ CSVFilePath := "file.csv", Fields := [], FieldConfigPath := "", SelectedFields := [] },
         ⟨csvResults 0 [["Name", " Email ", "", "Email"], ["Ann", "a@x", "", "b@y"]]⟩⟩
        = .ok (some ([doc], none)) ∧
      doc.Fields "Email" = some "b@y" ∧ ∀ k, doc.Fields k ≠ some "a@x" := by
  refine ⟨(((NewDocument.SetField "Name" "Ann").SetField "Email" "b@y").SetField "Email"
    "b@y").SetField "source_csv" "file.csv", by rfl, by rfl, ?_⟩
  intro k
  simp only [Document.SetField, GoMap.set, NewDocument, GoMap.empty]
  split_ifs <;> simp

/-- C16, amended. For the header `["Name", " Email ", "", "Email"]` with an
inferred schema, the two fields named `Email` have the same `CSVName`, which
the header map sends to column 3: for every row of four cells the document
has one entry `Email`, the cleaned cell of column 3 when it is not empty and
none otherwise, whatever the cell of column 1 is. -/
theorem duplicate_names_last_column (S : GoStrings) (path c0 c1 c2 c3 : String) :
    DetectFields (["Name", " Email ", "", "Email"].map cleanString) =
      [{ Name := "Name", Required := false, CSVName := "Name" },
       { Name := "Email", Required := false, CSVName := "Email" },
       { Name := "Email", Required := false, CSVName := "Email" }] ∧
    fillHeaderMap S (["Name", " Email ", "", "Email"].map cleanString) 0 GoMap.empty
      (S.ToLower "Email") = some 3 ∧
    ∃ doc,
      runPipeline S
        ⟨{ CSVFilePath := path, Fields := [], FieldConfigPath := "", SelectedFields := [] },
         ⟨csvResults 0 [["Name", " Email ", "", "Email"], [c0, c1, c2, c3]]⟩⟩
        = .ok (some ([doc], none)) ∧
      doc.Fields "Email" = if cleanString c3 ≠ "" then some (cleanString c3) else none := by
  have hclean : ["Name", " Email ", "", "Email"].map cleanString = ["Name", "Email", "", "Email"] := by
    decide
  have hdet : DetectFields ["Name", "Email", "", "Email"] =
      [{ Name := "Name", Required := false, CSVName := "Name" },
       { Name := "Email", Required := false, CSVName := "Email" },
       { Name := "Email", Required := false, CSVName := "Email" }] := by decide
  have hres : csvResults 0 [["Name", " Email ", "", "Email"], [c0, c1, c2, c3]] =
      [.row ["Name", " Email ", "", "Email"], .row [c0, c1, c2, c3]] := by
    simp [csvResults]
  have hemail : fillHeaderMap S ["Name", "Email", "", "Email"] 0 GoMap.empty (S.ToLower "Email")
      = some 3 := by
    simp [fillHeaderMap, GoMap.set]
  have hname : fillHeaderMap S ["Name", "Email", "", "Email"] 0 GoMap.empty (S.ToLower "Name")
      = some 0 ∨
      fillHeaderMap S ["Name", "Email", "", "Email"] 0 GoMap.empty (S.ToLower "Name")
      = some 3 := by
    by_cases h : S.ToLower "Name" = S.ToLower "Email"
    · right; simp [fillHeaderMap, GoMap.set, h]
    · left; simp [fillHeaderMap, GoMap.set, h]
  have hph : ProcessHeader S
      ⟨{ CSVFilePath := path, Fields := [], FieldConfigPath := "", SelectedFields := [] },
       ⟨[.row ["Name", " Email ", "", "Email"], .row [c0, c1, c2, c3]]⟩⟩ =
      (.ok (fillHeaderMap S ["Name", "Email", "", "Email"] 0 GoMap.empty),
       ⟨{ CSVFilePath := path,
          Fields := [{ Name := "Name", Required := false, CSVName := "Name" },
                     { Name := "Email", Required := false, CSVName := "Email" },
                     { Name := "Email", Required := false, CSVName := "Email" }],
          FieldConfigPath := "", SelectedFields := [] },
        ⟨[.row [c0, c1, c2, c3]]⟩⟩) := by
    refine Prod.ext ?_ ?_
    · rw [processHeader_row_fst]
      simp [hclean, hdet, validateRequired]
    · rw [processHeader_row_snd]
      simp [hclean, hdet]
  have hne : ¬ ("Email" : String) = "Name" := by decide
  have hne2 : ¬ ("Email" : String) = "source_csv" := by decide
  refine ⟨by rw [hclean, hdet], by rw [hclean]; exact hemail, ?_⟩
  rw [hres]
  simp only [runPipeline, hph]
  rcases hname with hname | hname
  · by_cases h0 : cleanString c0 = "" <;> by_cases h3 : cleanString c3 = "" <;>
      simp [ProcessRecords, readLoop, buildDocument, setFields, hemail, hname, h0, h3,
        Document.SetField, GoMap.set, NewDocument, GoMap.empty, hne, hne2]
  · by_cases h3 : cleanString c3 = "" <;>
      simp [ProcessRecords, readLoop, buildDocument, setFields, hemail, hname, h3,
        Document.SetField, GoMap.set, NewDocument, GoMap.empty, hne, hne2]

/-! ## Column positions and inferred schemas (C17, C18) -/

/-- With a positive expected number of fields, every record the reader gives
without error has that number of fields. -/
theorem csvResults_length (n : Nat) (lines : List (List String)) (hn : 0 < n) :
    ∀ record ∈ goodRows (csvResults n lines), record.length = n := by
  induction lines with
  | nil => simp [csvResults, goodRows]
  | cons line rest ih =>
    have h0 : ¬ n = 0 := by omega
    by_cases hl : line.length = n
    · simp only [csvResults, h0, if_false, hl, ne_eq, not_true_eq_false, goodRows,
        List.mem_cons]
      rintro record (rfl | hr)
      · exact hl
      · exact ih record hr
    · simp only [csvResults, h0, if_false, hl, ne_eq, not_false_eq_true, if_true, goodRows]
      exact ih

/-- The header map returned by `ProcessHeader` is the one filled from the
cleaned header. -/
theorem processHeader_ok (S : GoStrings) (cfg : Config) (header : List String)
    (rest : List RowResult) (headerMap : GoMap Nat)
    (hok : (ProcessHeader S ⟨cfg, ⟨.row header :: rest⟩⟩).1 = .ok headerMap) :
    headerMap = fillHeaderMap S (header.map cleanString) 0 GoMap.empty := by
  rw [processHeader_row_fst] at hok
  split at hok
  · simp at hok
  · simp only [Except.ok.injEq] at hok
    exact hok.symm

/-- A field detected from a header has the cleaned text of a cell as `CSVName`. -/
theorem detectFields_mem (header : List String) (f : FieldConfig) (hf : f ∈ DetectFields header) :
    ∃ h ∈ header, cleanString h ≠ "" ∧ f.CSVName = cleanString h := by
  induction header with
  | nil => simp [DetectFields] at hf
  | cons h rest ih =>
    by_cases hn : cleanString h = ""
    · simp only [DetectFields, hn, if_true] at hf
      obtain ⟨h1, hh1, hne, he⟩ := ih hf
      exact ⟨h1, List.mem_cons_of_mem _ hh1, hne, he⟩
    · simp only [DetectFields, hn, if_false, List.mem_cons] at hf
      rcases hf with rfl | hf
      · exact ⟨h, List.mem_cons_self _ _, hn, rfl⟩
      · obtain ⟨h1, hh1, hne, he⟩ := ih hf
        exact ⟨h1, List.mem_cons_of_mem _ hh1, hne, he⟩

/-- C17. When the header map is the one `ProcessHeader` returned for a header
row of length `n` and every record read without error has `n` cells, every
position stored in the header map is below `n`, the lookup `record[idx]`
finds a cell in every such record, and `ProcessRecords` returns without a
panic. The reader gives only records of the expected length. With a header
map supplied by a caller that holds a position beyond the row, the access
is out of range. -/
theorem processRecords_in_bounds (S : GoStrings) (cfg : Config) (header : List String)
    (rest : List RowResult) (headerMap : GoMap Nat)
    (hok : (ProcessHeader S ⟨cfg, ⟨.row header :: rest⟩⟩).1 = .ok headerMap)
    (hrows : ∀ record ∈ goodRows rest, record.length = header.length) :
    (∀ k i, headerMap k = some i → i < header.length) ∧
    (∀ record ∈ goodRows rest, ∀ (k : String) (i : Nat), headerMap k = some i →
      ∃ cell, record[i]? = some cell) ∧
    (∃ docs s1,
      ProcessRecords S (ProcessHeader S ⟨cfg, ⟨.row header :: rest⟩⟩).2 headerMap
        = some ((docs, none), s1) ∧
      docs.length = (goodRows rest).length) ∧
    (∀ (n : Nat) (lines : List (List String)), 0 < n →
      ∀ record ∈ goodRows (csvResults n lines), record.length = n) ∧
    ProcessRecords GoStrings.ascii ⟨demoConfig, ⟨[.row ["x"]]⟩⟩ demoHeaderMap = none := by
  have hmap := processHeader_ok S cfg header rest headerMap hok
  have hlt : ∀ k i, headerMap k = some i → i < header.length := by
    intro k i hk
    rw [hmap] at hk
    simpa using fill_lt_length S (header.map cleanString) k i hk
  refine ⟨hlt, ?_, ?_, csvResults_length, by rfl⟩
  · intro record hr k i hk
    have h1 := hlt k i hk
    have h2 := hrows record hr
    exact ⟨record[i], List.getElem?_eq_getElem (by omega)⟩
  · rw [processHeader_row_snd]
    obtain ⟨docs, hres, hall⟩ := processRecords_some S
      ⟨{ cfg with Fields := if cfg.Fields.length = 0 then DetectFields (header.map cleanString)
            else cfg.Fields }, ⟨rest⟩⟩ headerMap
      (by
        intro record hr f _ idx hidx
        have h1 := hlt _ idx hidx
        have h2 := hrows record hr
        omega)
    exact ⟨docs, _, hres, (forall₂_index _ _ _ hall).1⟩

/-- Witness of C17: the header `["ID", "Name"]`, two records of two cells and
one malformed row. -/
theorem processRecords_in_bounds_witness :
    (ProcessHeader GoStrings.ascii
      ⟨demoConfig, ⟨.row ["ID", "Name"] ::
        [.row ["1", "x"], .bad "wrong number of fields", .row ["2", "y"]]⟩⟩).1 =
      .ok (fillHeaderMap GoStrings.ascii (["ID", "Name"].map cleanString) 0 GoMap.empty) ∧
    (∀ record ∈ goodRows [.row ["1", "x"], .bad "wrong number of fields", .row ["2", "y"]],
      record.length = ["ID", "Name"].length) ∧
    (∀ k i, fillHeaderMap GoStrings.ascii (["ID", "Name"].map cleanString) 0 GoMap.empty k
      = some i → i < ["ID", "Name"].length) ∧
    ∃ docs s1,
      ProcessRecords GoStrings.ascii
        (ProcessHeader GoStrings.ascii
          ⟨demoConfig, ⟨.row ["ID", "Name"] ::
            [.row ["1", "x"], .bad "wrong number of fields", .row ["2", "y"]]⟩⟩).2
        (fillHeaderMap GoStrings.ascii (["ID", "Name"].map cleanString) 0 GoMap.empty)
        = some ((docs, none), s1) ∧
      docs.length =
        (goodRows [.row ["1", "x"], .bad "wrong number of fields", .row ["2", "y"]]).length :=
  have hok : (ProcessHeader GoStrings.ascii
      ⟨demoConfig, ⟨.row ["ID", "Name"] ::
        [.row ["1", "x"], .bad "wrong number of fields", .row ["2", "y"]]⟩⟩).1 =
      .ok (fillHeaderMap GoStrings.ascii (["ID", "Name"].map cleanString) 0 GoMap.empty) := by
    rfl
  have hrows : ∀ record ∈ goodRows
      [.row ["1", "x"], .bad "wrong number of fields", .row ["2", "y"]],
      record.length = ["ID", "Name"].length := by
    intro record hr
    simp only [goodRows, List.mem_cons, List.mem_singleton, List.not_mem_nil, or_false] at hr
    rcases hr with rfl | rfl <;> rfl
  have h := processRecords_in_bounds GoStrings.ascii demoConfig ["ID", "Name"]
    [.row ["1", "x"], .bad "wrong number of fields", .row ["2", "y"]] _ hok hrows
  ⟨hok, hrows, h.1, h.2.2.1⟩

/-- C18. When no external schema is supplied, `ProcessHeader` on a header row
read without error never fails validation: it returns the header map, the
schema it leaves in the configuration is `DetectFields header`, and every
field of that schema has its lower-cased `CSVName` as a key of the header
map, at a position of the header. -/
theorem inferred_schema_resolves (S : GoStrings) (cfg : Config) (header : List String)
    (rest : List RowResult) :
    (ProcessHeader S ⟨{ cfg with Fields := [] }, ⟨.row header :: rest⟩⟩).1 =
      .ok (fillHeaderMap S (header.map cleanString) 0 GoMap.empty) ∧
    (ProcessHeader S ⟨{ cfg with Fields := [] }, ⟨.row header :: rest⟩⟩).2.config.Fields =
      DetectFields header ∧
    (ProcessHeader S ⟨{ cfg with Fields := [] }, ⟨.row header :: rest⟩⟩).2.config.Fields =
      DetectFields (header.map cleanString) ∧
    ∀ f ∈ DetectFields header,
      ∃ i, fillHeaderMap S (header.map cleanString) 0 GoMap.empty (S.ToLower f.CSVName) = some i ∧
        i < header.length := by
  refine ⟨?_, ?_, ?_, ?_⟩
  · rw [processHeader_row_fst]
    have hv : validateRequired S (fillHeaderMap S (header.map cleanString) 0 GoMap.empty)
        (DetectFields (header.map cleanString)) = none := by
      rw [validateRequired_eq_none]
      intro f hf hreq
      rw [detectFields_not_required _ f hf] at hreq
      exact absurd hreq (by simp)
    simp only [List.length_nil, if_true, hv]
  · rw [processHeader_row_snd]
    simp only [List.length_nil, if_true]
    exact detectFields_clean header
  · rw [processHeader_row_snd]
    simp only [List.length_nil, if_true]
  · intro f hf
    obtain ⟨h, hh, hne, he⟩ := detectFields_mem header f hf
    have hsome := (fill_isSome S (header.map cleanString) 0 GoMap.empty
      (S.ToLower f.CSVName)).2
      (Or.inl ⟨cleanString h, List.mem_map.2 ⟨h, hh, rfl⟩, hne, by rw [he]⟩)
    obtain ⟨i, hi⟩ := Option.isSome_iff_exists.1 hsome
    exact ⟨i, hi, by simpa using fill_lt_length S (header.map cleanString) _ i hi⟩

end Csves
